import Mathlib

/-!
# Size rotator

A shallow embedding of `size_rotator.go` (package `rotator`): a writer that
appends to a file and renames it out of the way once a write would take it
over a size threshold.

The embedding is sequential (one `Write` at a time, which is what the mutex
of the source gives) and threads the filesystem explicitly.  The filesystem
maps names to contents (regular files only); it is changed by the writer only.
Each call takes an `Env` that fixes how the operating system answers the
calls that can fail for outside reasons (rename, open, write).  Every call
made to the operating system is recorded in order, so that statements such
as "no file is renamed" are statements about that record.
-/

namespace Rotator

/-! ## Go values -/

/-- Go strings, as the sequence of their code points. -/
abbrev Str := List Char

/-- One byte of file content. -/
abbrev Byte := Fin 256

/-- Go's `int64` arithmetic wraps around: the representative of `x` modulo
`2^64` in `[-2^63, 2^63)`. With `m` the residue of `x` in `[0, 2^64)`, that
is `m` below `2^63` and `m - 2^64` from there on (`wrapInt64_eq_bmod`). -/
def wrapInt64 (x : Int) : Int :=
  let m : Nat := (x % 2 ^ 64).toNat
  if 2 ^ 63 ≤ m then (m : Int) - 2 ^ 64 else (m : Int)

/-- Errors a call can return. `rotationExceeded` is the value built at line 80
of the source, the others come from package `os`. -/
inductive Error where
  /-- The value `errors.New("Rotation count has been exceeded")` -/
  | rotationExceeded
  /-- The error `ENOENT`: the named file does not exist -/
  | notExist
  /-- The error `os.ErrClosed`: the handle was closed before -/
  | closed
  /-- The error `os.ErrInvalid`: method called on a nil `*os.File` -/
  | invalid
  /-- Any other failure reported by the operating system -/
  | fault (code : Nat)
  deriving DecidableEq, Repr

/-! ## Standard library functions used by the source -/

/-- Go `strconv.Itoa`: decimal digits, with a leading minus sign for a
negative number. -/
def Itoa (i : Int) : Str :=
  match i with
  | Int.ofNat n => Nat.toDigits 10 n
  | Int.negSucc n => '-' :: Nat.toDigits 10 (n + 1)

/-- Go `strings.Repeat`: `none` stands for the panic on a negative count. -/
def Repeat (s : Str) (count : Int) : Option Str :=
  if count < 0 then none else some (List.replicate count.toNat s).flatten

/-- The scan of `filepath.Ext`, on the reversed path: `acc` is the part of
the path already passed, in order. -/
def extScan (acc : Str) : Str → Str
  | [] => []
  | c :: rest =>
    if c = '/' then []
    else if c = '.' then '.' :: acc
    else extScan (c :: acc) rest

/-- Go `filepath.Ext`: the suffix beginning at the final dot of the final
element of the path, empty if there is no dot (separator `/`). -/
def Ext (path : Str) : Str := extScan [] path.reverse

/-- Go `strings.TrimRight`: `s` without its trailing code points that are
contained in `cutset`. -/
def TrimRight (s cutset : Str) : Str :=
  if s = [] ∨ cutset = [] then s
  else (s.reverse.dropWhile (fun c => cutset.contains c)).reverse

/-! ## The padding helper of the source -/

/-- Source `LeftPad2Len` (lines 35-39). `none` stands for a panic: division
by zero when `padStr` is empty, a negative repeat count, or a slice bound
out of range. Go's `/` on `int` truncates toward zero. Go counts lengths in
bytes; the source calls this on decimal digits and `"0"` only, where bytes
and code points coincide. -/
def LeftPad2Len (s padStr : Str) (overallLen : Int) : Option Str :=
  if padStr.length = 0 then none
  else
    let padCountInt : Int := 1 + (overallLen - padStr.length).tdiv padStr.length
    match Repeat padStr padCountInt with
    | none => none
    | some pad =>
      let retStr := pad ++ s
      let start : Int := retStr.length - overallLen
      if start < 0 ∨ (retStr.length : Int) < start then none
      else some (retStr.drop start.toNat)

/-- The padded index of lines 62 and 64:
`LeftPad2Len(strconv.Itoa(i), "0", len(strconv.Itoa(MaxRotation)))`.
The call never panics (`paddedIndex_eq`), so the default is never used. -/
def paddedIndex (i maxRotation : Int) : Str :=
  (LeftPad2Len (Itoa i) ['0'] (Itoa maxRotation).length).getD []

/-- The name computed in the loop body, lines 59-65. -/
def renamedPath (path : Str) (i maxRotation : Int) : Str :=
  let fext := Ext path
  if fext.length ≠ 0 then
    TrimRight path fext ++ ['_'] ++ paddedIndex i maxRotation ++ fext
  else
    path ++ ['_'] ++ paddedIndex i maxRotation

/-! ## Filesystem -/

/-- The files on disk: the content stored under each name, `none` for a name
that does not exist. -/
abbrev FS := Str → Option (List Byte)

/-- The filesystem with the entry of `p` replaced. -/
def FS.set (fs : FS) (p : Str) (v : Option (List Byte)) : FS :=
  fun q => if q = p then v else fs q

/-- How the operating system answers, during one `Write`, the calls that can
fail for outside reasons. -/
structure Env where
  /-- Error returned by `os.Rename` although the source file exists -/
  renameErr : Option Error
  /-- Error returned by `os.OpenFile` -/
  openErr : Option Error
  /-- Number of bytes after which the write to the handle stops short -/
  writeLimit : Option Nat

/-- An environment in which no call fails. -/
def Env.ok : Env := ⟨none, none, none⟩

/-- A call made to the operating system. -/
inductive Call where
  | lstat (name : Str)
  | close
  | rename (oldpath newpath : Str)
  | openFile (name : Str)
  | write (b : List Byte)
  deriving DecidableEq, Repr

/-- Go `os.Lstat` followed by `stat.Size()`: `none` is the nil `FileInfo` of a
name that does not exist. -/
def Lstat (fs : FS) (name : Str) : Option Int :=
  (fs name).map (fun c => (c.length : Int))

/-- Go `os.Rename`: fails if the operating system says so or if `oldpath`
does not exist; otherwise the content moves to `newpath`. -/
def Rename (env : Env) (fs : FS) (oldpath newpath : Str) : Except Error FS :=
  match fs oldpath with
  | none => Except.error Error.notExist
  | some c =>
    match env.renameErr with
    | some e => Except.error e
    | none => Except.ok ((fs.set oldpath none).set newpath (some c))

/-- An `*os.File` that is not nil. It was opened on the path of the writer. -/
structure File where
  closed : Bool
  deriving DecidableEq, Repr

/-- Go `os.OpenFile(name, O_APPEND|O_WRONLY|O_CREATE, 0644)`: creates the file
empty if it does not exist. -/
def OpenFile (env : Env) (fs : FS) (name : Str) : Except Error (File × FS) :=
  match env.openErr with
  | some e => Except.error e
  | none =>
    match fs name with
    | none => Except.ok (⟨false⟩, fs.set name (some []))
    | some _ => Except.ok (⟨false⟩, fs)

/-- The number of bytes a write of `len` bytes gets through. -/
def Env.accepted (env : Env) (len : Nat) : Nat :=
  match env.writeLimit with
  | none => len
  | some k => min k len

/-- Go `(*os.File).Write` on a handle opened for appending on `name`: the
bytes that get through are appended, and the error is non-nil exactly when
fewer than all got through. A closed handle writes nothing. If the file was
unlinked by someone else the bytes go to the orphaned file and no name
changes. -/
def File.Write (f : File) (env : Env) (fs : FS) (name : Str) (b : List Byte) :
    Nat × Option Error × FS :=
  if f.closed then (0, some Error.closed, fs)
  else
    let n := env.accepted b.length
    let fs1 : FS :=
      match fs name with
      | none => fs
      | some c => fs.set name (some (c ++ b.take n))
    (n, if n < b.length then some (Error.fault 0) else none, fs1)

/-! ## The writer -/

/-- Source line 13. -/
def defaultRotationSize : Int := 1024 * 1024 * 10

/-- Source line 14. -/
def defaultMaxRotation : Int := 999

/-- Source `SizeRotator` (lines 18-25), without the mutex. -/
structure SizeRotator where
  path : Str
  totalSize : Int
  file : Option File
  RotationSize : Int
  MaxRotation : Int

/-- Source `NewSizeRotator` (lines 109-115). -/
def NewSizeRotator (path : Str) : SizeRotator :=
  { path := path, totalSize := 0, file := none,
    RotationSize := defaultRotationSize, MaxRotation := defaultMaxRotation }

/-- What one `Write` returns and leaves behind. -/
structure WriteResult where
  n : Nat
  err : Option Error
  r : SizeRotator
  fs : FS
  calls : List Call

/-- Lines 47-54: with no handle, the size is read from the file at `path`
if there is one. -/
def discover (r : SizeRotator) (fs : FS) : SizeRotator :=
  match r.file with
  | some _ => r
  | none =>
    match Lstat fs r.path with
    | some size => { r with totalSize := size }
    | none => r

/-- The calls made by lines 47-54. -/
def discoverCalls (r : SizeRotator) : List Call :=
  match r.file with
  | some _ => []
  | none => [Call.lstat r.path]

/-- The condition of line 56, in `int64` arithmetic. -/
def exceeds (r : SizeRotator) (b : List Byte) : Bool :=
  decide (wrapInt64 (r.totalSize + (b.length : Int)) > r.RotationSize)

/-- How the loop of lines 58-82 ends. -/
structure LoopResult where
  r : SizeRotator
  fs : FS
  calls : List Call
  /-- The error with which `Write` returns from inside the loop, if it does -/
  ret : Option Error

/-- The loop of lines 58-82 from index `i` on, `k` being the number of
indices left in `i..MaxRotation` (so `k = 0` is the loop condition
`i <= r.MaxRotation` being false). -/
def rotateFrom (env : Env) (r : SizeRotator) (fs : FS) : Nat → Int → LoopResult
  | 0, _ => ⟨r, fs, [], none⟩
  | k + 1, i =>
    let renamed := renamedPath r.path i r.MaxRotation
    match Lstat fs renamed with
    | none =>
      let closing := match r.file with
        | some _ => [Call.close]
        | none => []
      let r1 := { r with file := none }
      match Rename env fs r.path renamed with
      | Except.error e =>
        ⟨r1, fs, Call.lstat renamed :: closing ++ [Call.rename r.path renamed], some e⟩
      | Except.ok fs1 =>
        ⟨r1, fs1, Call.lstat renamed :: closing ++ [Call.rename r.path renamed], none⟩
    | some _ =>
      if i = r.MaxRotation then
        ⟨r, fs, [Call.lstat renamed], some Error.rotationExceeded⟩
      else
        let rest := rotateFrom env r fs k (i + 1)
        { rest with calls := Call.lstat renamed :: rest.calls }

/-- The whole loop of lines 58-82: `for i := 1; i <= r.MaxRotation; i++`. -/
def rotate (env : Env) (r : SizeRotator) (fs : FS) : LoopResult :=
  rotateFrom env r fs r.MaxRotation.toNat 1

/-- Lines 84-94: open the file if there is no handle, then write. -/
def reopenAndWrite (env : Env) (r : SizeRotator) (fs : FS) (b : List Byte)
    (calls : List Call) : WriteResult :=
  match r.file with
  | none =>
    match OpenFile env fs r.path with
    | Except.error e => ⟨0, some e, r, fs, calls ++ [Call.openFile r.path]⟩
    | Except.ok (f, fs1) =>
      let r1 := { r with file := some f, totalSize := 0 }
      let (n, err, fs2) := f.Write env fs1 r.path b
      ⟨n, err, { r1 with totalSize := wrapInt64 (r1.totalSize + (n : Int)) }, fs2,
        calls ++ [Call.openFile r.path, Call.write b]⟩
  | some f =>
    let (n, err, fs2) := f.Write env fs r.path b
    ⟨n, err, { r with totalSize := wrapInt64 (r.totalSize + (n : Int)) }, fs2,
      calls ++ [Call.write b]⟩

/-- Source `Write` (lines 43-95). -/
def Write (r : SizeRotator) (fs : FS) (env : Env) (b : List Byte) : WriteResult :=
  let r0 := discover r fs
  let calls0 := discoverCalls r
  if exceeds r0 b then
    let loop := rotate env r0 fs
    match loop.ret with
    | some e => ⟨0, some e, loop.r, loop.fs, calls0 ++ loop.calls⟩
    | none => reopenAndWrite env loop.r loop.fs b (calls0 ++ loop.calls)
  else
    reopenAndWrite env r0 fs b calls0

/-- Source `Close` (lines 104-106): the error of `r.file.Close()`, which is
`os.ErrInvalid` on a nil handle and `os.ErrClosed` on a closed one. -/
def Close (r : SizeRotator) : Option Error × SizeRotator :=
  match r.file with
  | none => (some Error.invalid, r)
  | some f =>
    if f.closed then (some Error.closed, r)
    else (none, { r with file := some ⟨true⟩ })

/-! ## Sequences of writes -/

/-- The writer and the filesystem after the given `Write` calls, in order. -/
def afterWrites : SizeRotator → FS → List (Env × List Byte) → SizeRotator × FS
  | r, fs, [] => (r, fs)
  | r, fs, (env, b) :: ws => afterWrites (Write r fs env b).r (Write r fs env b).fs ws

/-- The byte counts returned by the given `Write` calls, in order. -/
def returned : SizeRotator → FS → List (Env × List Byte) → List Nat
  | _, _, [] => []
  | r, fs, (env, b) :: ws =>
    (Write r fs env b).n :: returned (Write r fs env b).r (Write r fs env b).fs ws

/-- No call of the sequence triggers rotation: each time, the size after
discovery plus the payload length, as integers, stays within
`RotationSize`. -/
def noRotation : SizeRotator → FS → List (Env × List Byte) → Prop
  | _, _, [] => True
  | r, fs, (env, b) :: ws =>
    (discover r fs).totalSize + (b.length : Int) ≤ r.RotationSize ∧
      noRotation (Write r fs env b).r (Write r fs env b).fs ws

/-! ## Reading a decimal string -/

/-- The value of a decimal digit, `none` for any other character. -/
def digitValue (c : Char) : Option Nat :=
  if '0' ≤ c ∧ c ≤ '9' then some (c.toNat - 48) else none

/-- The scan of `decimalValue`: `acc` is the value of the digits passed. -/
def decimalFrom (acc : Nat) : Str → Option Nat
  | [] => some acc
  | c :: cs =>
    match digitValue c with
    | none => none
    | some d => decimalFrom (acc * 10 + d) cs

/-- Go `strconv.Atoi` on an unsigned decimal string: the number the digits
denote, leading zeros allowed; `none` for the empty string and for a string
with a character that is no digit. -/
def decimalValue (s : Str) : Option Nat :=
  if s = [] then none else decimalFrom 0 s

/-! ## Sequences of writes on a closed handle -/

/-- What the given `Write` calls return and leave, in order. -/
def results : SizeRotator → FS → List (Env × List Byte) → List WriteResult
  | _, _, [] => []
  | r, fs, (env, b) :: ws =>
    Write r fs env b :: results (Write r fs env b).r (Write r fs env b).fs ws

/-- The payload sends `Write` to a free slot: the condition of line 56 holds
and some candidate name in `1..MaxRotation` does not exist. -/
def findsSlot (r : SizeRotator) (fs : FS) (b : List Byte) : Prop :=
  exceeds (discover r fs) b = true ∧
    ∃ i : Int, 1 ≤ i ∧ i ≤ r.MaxRotation ∧ fs (renamedPath r.path i r.MaxRotation) = none

/-- No call of the sequence is sent to a free slot. -/
def noneFindsSlot : SizeRotator → FS → List (Env × List Byte) → Prop
  | _, _, [] => True
  | r, fs, (env, b) :: ws =>
    ¬ findsSlot r fs b ∧ noneFindsSlot (Write r fs env b).r (Write r fs env b).fs ws

/-! ## `WriteString` and the mutex -/

/-- The bytes of a Go string: its UTF-8 encoding. -/
def utf8Bytes (s : Str) : List Byte :=
  (s.flatMap String.utf8EncodeChar).map (fun u => Fin.ofNat u.toNat)

/-- Source `WriteString` (lines 99-101): `r.Write([]byte(str))`. -/
def WriteString (r : SizeRotator) (fs : FS) (env : Env) (str : Str) : WriteResult :=
  Write r fs env (utf8Bytes str)

/-- What a method does with the mutex and the shared fields, in order. -/
inductive Step where
  /-- The call `r.mutex.Lock()` -/
  | lock
  /-- The call `r.mutex.Unlock()` -/
  | unlock
  /-- A statement that reads or writes `r.file` or `r.totalSize` -/
  | access
  /-- A call to the operating system made on behalf of the writer -/
  | call (c : Call)
  deriving DecidableEq, Repr

/-- Source `Write` as steps: line 44 takes the mutex and line 45 defers its
release to the return; in between, line 47 reads the handle on every path and
the other statements make the recorded calls. -/
def WriteSteps (r : SizeRotator) (fs : FS) (env : Env) (b : List Byte) : List Step :=
  [Step.lock, Step.access] ++ (Write r fs env b).calls.map Step.call ++ [Step.unlock]

/-- Source `WriteString` as steps: nothing but the call of `Write`. -/
def WriteStringSteps (r : SizeRotator) (fs : FS) (env : Env) (str : Str) : List Step :=
  WriteSteps r fs env (utf8Bytes str)

/-- Source `Close` as steps: line 105 reads `r.file` and closes it; the method
has no other statement. -/
def CloseSteps : List Step := [Step.access, Step.call Call.close]

/-- Whether the mutex is held at every access and call of the steps, `held`
telling whether it is held at the start. -/
def heldThroughout : Bool → List Step → Bool
  | _, [] => true
  | _, Step.lock :: rest => heldThroughout true rest
  | _, Step.unlock :: rest => heldThroughout false rest
  | held, Step.access :: rest => held && heldThroughout held rest
  | held, Step.call _ :: rest => held && heldThroughout held rest

/-! ## The rotated name as the specification words it -/

/-- The index zero-left-padded to the digit width of the maximum, in the
words of the specification. -/
def specPaddedIndex (i maxRotation : Int) : Str :=
  List.replicate ((Itoa maxRotation).length - (Itoa i).length) '0' ++ Itoa i

/-- The rotated name in the words of the specification: the extension is
stripped as a suffix, `_` and the padded index are appended, and the
extension is appended again. -/
def specRenamedPath (path : Str) (i maxRotation : Int) : Str :=
  let ext := Ext path
  if ext.length ≠ 0 then
    path.take (path.length - ext.length) ++ ['_'] ++ specPaddedIndex i maxRotation ++ ext
  else
    path ++ ['_'] ++ specPaddedIndex i maxRotation

/-! ## Concrete inputs -/

/-- A payload of `n` bytes. -/
def bytesOf (n : Nat) : List Byte := List.replicate n 7

/-- The path `a.log`. -/
def aLog : Str := "a.log".toList

/-- A filesystem holding `a.log` with `k` bytes and nothing else. -/
def onlyALog (k : Nat) : FS := fun p => if p = aLog then some (bytesOf k) else none

/-- A filesystem holding no file. -/
def emptyFS : FS := fun _ => none

/-- A fresh writer on `a.log` with `RotationSize` set to `limit`. -/
def freshALog (limit : Int) : SizeRotator :=
  { NewSizeRotator aLog with RotationSize := limit }

/-- A fresh writer on `a.log` with `RotationSize` set to `limit` and two
rotation slots. -/
def twoSlots (limit : Int) : SizeRotator :=
  { NewSizeRotator aLog with RotationSize := limit, MaxRotation := 2 }

/-- A filesystem holding `a.log` with `k` bytes and both rotated files of a
writer with two slots. -/
def bothTaken (k : Nat) : FS :=
  ((onlyALog k).set "a_1.log".toList (some [])).set "a_2.log".toList (some [])

/-- An environment in which a write to the handle stops after `k` bytes. -/
def shortWrite (k : Nat) : Env := ⟨none, none, some k⟩

/-- A payload of six bytes, each equal to `k`. -/
def six (k : Byte) : List Byte := List.replicate 6 k

/-- First write of the scenario: six bytes on an empty filesystem, limit
10, two slots. -/
def scenario1 : WriteResult := Write (twoSlots 10) emptyFS Env.ok (six 1)

/-- Second write of the scenario. -/
def scenario2 : WriteResult := Write scenario1.r scenario1.fs Env.ok (six 2)

/-- Third write of the scenario. -/
def scenario3 : WriteResult := Write scenario2.r scenario2.fs Env.ok (six 3)

/-- Fourth write of the scenario. -/
def scenario4 : WriteResult := Write scenario3.r scenario3.fs Env.ok (six 4)

/-- A fresh writer on `a.log` with `RotationSize` set to `limit` and
`MaxRotation = 0`. -/
def noSlots (limit : Int) : SizeRotator :=
  { NewSizeRotator aLog with RotationSize := limit, MaxRotation := 0 }

/-- A writer on `a.log` with an open handle, limit 10, and `totalSize` at
the largest `int64`. -/
def fullCounter : SizeRotator :=
  { path := aLog, totalSize := 2 ^ 63 - 1, file := some ⟨false⟩,
    RotationSize := 10, MaxRotation := defaultMaxRotation }

/-- A writer on `a.log` with two slots, limit 10, an open handle and
`totalSize = 6`. -/
def openTwoSlots : SizeRotator :=
  { twoSlots 10 with totalSize := 6, file := some ⟨false⟩ }

/-- An environment in which opening a file fails. -/
def openFails : Env := ⟨none, some (Error.fault 13), none⟩

/-- An environment in which renaming a file fails. -/
def renameFails : Env := ⟨some (Error.fault 13), none, none⟩

/-! ## Arithmetic and filesystem lemmas -/

/-- The wrap is the balanced residue modulo `2^64`. -/
theorem wrapInt64_eq_bmod (x : Int) : wrapInt64 x = Int.bmod x (2 ^ 64) := by
  unfold wrapInt64 Int.bmod
  simp only []
  split <;> split <;> omega

theorem wrapInt64_eq {x : Int} (h1 : -2 ^ 63 ≤ x) (h2 : x < 2 ^ 63) : wrapInt64 x = x := by
  unfold wrapInt64
  simp only []
  split <;> omega

theorem exceeds_iff (r : SizeRotator) (b : List Byte)
    (h1 : -2 ^ 63 ≤ r.totalSize + (b.length : Int))
    (h2 : r.totalSize + (b.length : Int) < 2 ^ 63) :
    exceeds r b = true ↔ r.totalSize + (b.length : Int) > r.RotationSize := by
  unfold exceeds
  rw [wrapInt64_eq h1 h2]
  simp

@[simp] theorem FS.set_same (fs : FS) (p : Str) (v : Option (List Byte)) :
    (fs.set p v) p = v := by
  simp [FS.set]

theorem FS.set_other (fs : FS) {p q : Str} (v : Option (List Byte)) (h : q ≠ p) :
    (fs.set p v) q = fs q := by
  simp [FS.set, h]

theorem Lstat_eq_none {fs : FS} {p : Str} : Lstat fs p = none ↔ fs p = none := by
  simp [Lstat]

/-- The padding call of the source never panics: with pad string `"0"` the
result is the last `w` characters of `w` zeros followed by `s`. -/
theorem LeftPad2Len_zero (s : Str) (w : Nat) :
    LeftPad2Len s ['0'] (w : Int) = some ((List.replicate w '0' ++ s).drop s.length) := by
  have hdiv : (1 : Int) + ((w : Int) - 1).tdiv 1 = w := by
    rw [Int.tdiv_one]; omega
  have hrep : Repeat ['0'] (w : Int) = some (List.replicate w '0') := by
    unfold Repeat
    have : ¬ ((w : Int) < 0) := by omega
    simp only [this, if_false, Int.toNat_ofNat]
    congr 1
    induction w with
    | zero => rfl
    | succ n ih => simp [List.replicate_succ, ih]
  unfold LeftPad2Len
  simp only [List.length_singleton, Nat.cast_one, hdiv, hrep]
  simp

theorem paddedIndex_eq (i maxRotation : Int) :
    paddedIndex i maxRotation =
      (List.replicate (Itoa maxRotation).length '0' ++ Itoa i).drop (Itoa i).length := by
  unfold paddedIndex
  rw [LeftPad2Len_zero]
  rfl

/-! ## The slot search -/

/-- A rename recorded by the loop is the rename of `path` to the first free
candidate name, and it ends the loop. -/
theorem rotateFrom_rename_mem (env : Env) (r : SizeRotator) (fs : FS) :
    ∀ (k : Nat) (i : Int) (a t : Str),
      Call.rename a t ∈ (rotateFrom env r fs k i).calls →
      a = r.path ∧ fs t = none ∧
      (∃ j : Int, i ≤ j ∧ j < i + k ∧ t = renamedPath r.path j r.MaxRotation ∧
        ∀ j' : Int, i ≤ j' → j' < j → fs (renamedPath r.path j' r.MaxRotation) ≠ none) ∧
      (rotateFrom env r fs k i).r = { r with file := none } ∧
      (rotateFrom env r fs k i).ret = (match Rename env fs r.path t with
          | Except.error e => some e
          | Except.ok _ => none) ∧
      (rotateFrom env r fs k i).fs = (match Rename env fs r.path t with
          | Except.error _ => fs
          | Except.ok fs1 => fs1) := by
  intro k
  induction k with
  | zero =>
    intro i a t h
    simp [rotateFrom] at h
  | succ k ih =>
    intro i a t h
    cases hl : Lstat fs (renamedPath r.path i r.MaxRotation) with
    | none =>
      have hfree := Lstat_eq_none.mp hl
      cases hr : Rename env fs r.path (renamedPath r.path i r.MaxRotation) with
      | error e =>
        simp only [rotateFrom, hl, hr] at h ⊢
        have ht : a = r.path ∧ t = renamedPath r.path i r.MaxRotation := by
          cases hf : r.file <;> simp [hf] at h <;> exact h
        obtain ⟨ha, ht⟩ := ht
        subst ht
        refine ⟨ha, hfree, ⟨i, le_refl _, by omega, rfl, ?_⟩, ?_⟩
        · intro j' h1 h2; omega
        · simp [hr]
      | ok fs1 =>
        simp only [rotateFrom, hl, hr] at h ⊢
        have ht : a = r.path ∧ t = renamedPath r.path i r.MaxRotation := by
          cases hf : r.file <;> simp [hf] at h <;> exact h
        obtain ⟨ha, ht⟩ := ht
        subst ht
        refine ⟨ha, hfree, ⟨i, le_refl _, by omega, rfl, ?_⟩, ?_⟩
        · intro j' h1 h2; omega
        · simp [hr]
    | some sz =>
      have hocc : fs (renamedPath r.path i r.MaxRotation) ≠ none := by
        intro hn
        rw [Lstat_eq_none.mpr hn] at hl
        cases hl
      by_cases hi : i = r.MaxRotation
      · subst hi
        simp [rotateFrom, hl] at h
      · simp only [rotateFrom, hl, hi, if_false] at h ⊢
        simp only [List.mem_cons, reduceCtorEq, false_or] at h
        obtain ⟨ha, hfree, ⟨j, hj1, hj2, hj3, hj4⟩, h4, h5, h6⟩ := ih (i + 1) a t h
        refine ⟨ha, hfree, ⟨j, by omega, by push_cast; omega, hj3, ?_⟩, h4, h5, h6⟩
        intro j' h1 h2
        by_cases hj' : j' = i
        · subst hj'; exact hocc
        · exact hj4 j' (by omega) h2

/-- With a free candidate among the indices left, the loop records a rename. -/
theorem rotateFrom_found (env : Env) (r : SizeRotator) (fs : FS) :
    ∀ (k : Nat) (i : Int), i + k = r.MaxRotation + 1 →
      (∃ j : Int, i ≤ j ∧ j ≤ r.MaxRotation ∧ fs (renamedPath r.path j r.MaxRotation) = none) →
      ∃ t, Call.rename r.path t ∈ (rotateFrom env r fs k i).calls := by
  intro k
  induction k with
  | zero =>
    intro i hk ⟨j, h1, h2, _⟩
    simp at hk
    omega
  | succ k ih =>
    intro i hk ⟨j, h1, h2, h3⟩
    cases hl : Lstat fs (renamedPath r.path i r.MaxRotation) with
    | none =>
      refine ⟨renamedPath r.path i r.MaxRotation, ?_⟩
      cases hr : Rename env fs r.path (renamedPath r.path i r.MaxRotation) <;>
        simp [rotateFrom, hl, hr]
    | some sz =>
      have hji : j ≠ i := by
        intro hji
        subst hji
        rw [Lstat_eq_none.mpr h3] at hl
        cases hl
      have hi : i ≠ r.MaxRotation := by omega
      obtain ⟨t, ht⟩ := ih (i + 1) (by push_cast at hk; omega) ⟨j, by omega, h2, h3⟩
      refine ⟨t, ?_⟩
      simp [rotateFrom, hl, hi, ht]

/-- With every candidate left occupied, the loop returns the rotation error
and has done nothing but look the names up. -/
theorem rotateFrom_exhausted (env : Env) (r : SizeRotator) (fs : FS) :
    ∀ (k : Nat) (i : Int), i + k = r.MaxRotation + 1 → 1 ≤ k →
      (∀ j : Int, i ≤ j → j ≤ r.MaxRotation →
        fs (renamedPath r.path j r.MaxRotation) ≠ none) →
      (rotateFrom env r fs k i).r = r ∧ (rotateFrom env r fs k i).fs = fs ∧
      (rotateFrom env r fs k i).ret = some Error.rotationExceeded ∧
      ∀ c ∈ (rotateFrom env r fs k i).calls, ∃ p, c = Call.lstat p := by
  intro k
  induction k with
  | zero =>
    intro i _ hk
    omega
  | succ k ih =>
    intro i hk _ hocc
    have hi := hocc i (le_refl _) (by push_cast at hk; omega)
    cases hl : Lstat fs (renamedPath r.path i r.MaxRotation) with
    | none => exact absurd (Lstat_eq_none.mp hl) hi
    | some sz =>
      by_cases hM : i = r.MaxRotation
      · subst hM
        simp [rotateFrom, hl]
      · have hk1 : 1 ≤ k := by push_cast at hk; omega
        obtain ⟨h1, h2, h3, h4⟩ := ih (i + 1) (by push_cast at hk; omega) hk1
          (fun j hj1 hj2 => hocc j (by omega) hj2)
        simp only [rotateFrom, hl, hM, if_false]
        refine ⟨h1, h2, h3, ?_⟩
        intro c hc
        simp only [List.mem_cons] at hc
        rcases hc with hc | hc
        · exact ⟨_, hc⟩
        · exact h4 c hc

/-- The loop begins by looking up the candidate name of its first index. -/
theorem rotateFrom_head (env : Env) (r : SizeRotator) (fs : FS) (k : Nat) (i : Int) :
    ∃ rest, (rotateFrom env r fs (k + 1) i).calls =
      Call.lstat (renamedPath r.path i r.MaxRotation) :: rest := by
  cases hl : Lstat fs (renamedPath r.path i r.MaxRotation) with
  | none =>
    cases hr : Rename env fs r.path (renamedPath r.path i r.MaxRotation) <;>
      simp [rotateFrom, hl, hr]
  | some sz =>
    by_cases hM : i = r.MaxRotation
    · subst hM
      simp [rotateFrom, hl]
    · simp [rotateFrom, hl, hM]

/-- The loop changes nothing in the writer but the handle. -/
theorem rotateFrom_fields (env : Env) (r : SizeRotator) (fs : FS) :
    ∀ (k : Nat) (i : Int),
      (rotateFrom env r fs k i).r.path = r.path ∧
      (rotateFrom env r fs k i).r.totalSize = r.totalSize ∧
      (rotateFrom env r fs k i).r.RotationSize = r.RotationSize ∧
      (rotateFrom env r fs k i).r.MaxRotation = r.MaxRotation := by
  intro k
  induction k with
  | zero => intro i; simp [rotateFrom]
  | succ k ih =>
    intro i
    cases hl : Lstat fs (renamedPath r.path i r.MaxRotation) with
    | none =>
      cases hr : Rename env fs r.path (renamedPath r.path i r.MaxRotation) <;>
        simp [rotateFrom, hl, hr]
    | some sz =>
      by_cases hM : i = r.MaxRotation
      · subst hM
        simp [rotateFrom, hl]
      · simpa [rotateFrom, hl, hM] using ih (i + 1)

/-! ## The discovery step and the write-through -/

@[simp] theorem discover_path (r : SizeRotator) (fs : FS) : (discover r fs).path = r.path := by
  unfold discover
  cases r.file <;> simp
  cases Lstat fs r.path <;> simp

@[simp] theorem discover_file (r : SizeRotator) (fs : FS) : (discover r fs).file = r.file := by
  unfold discover
  cases h : r.file <;> simp [h]
  cases Lstat fs r.path <;> simp [h]

@[simp] theorem discover_RotationSize (r : SizeRotator) (fs : FS) :
    (discover r fs).RotationSize = r.RotationSize := by
  unfold discover
  cases r.file <;> simp
  cases Lstat fs r.path <;> simp

@[simp] theorem discover_MaxRotation (r : SizeRotator) (fs : FS) :
    (discover r fs).MaxRotation = r.MaxRotation := by
  unfold discover
  cases r.file <;> simp
  cases Lstat fs r.path <;> simp

/-- Lines 84-94 add to the record an open, if there was no handle, and the
write. -/
theorem reopenAndWrite_calls (env : Env) (r : SizeRotator) (fs : FS) (b : List Byte)
    (calls : List Call) :
    ∃ extra, (reopenAndWrite env r fs b calls).calls = calls ++ extra ∧
      ∀ c ∈ extra, c = Call.openFile r.path ∨ c = Call.write b := by
  unfold reopenAndWrite
  cases hf : r.file with
  | none =>
    cases ho : OpenFile env fs r.path with
    | error e => exact ⟨[Call.openFile r.path], by simp⟩
    | ok v => exact ⟨[Call.openFile r.path, Call.write b], by simp⟩
  | some f => exact ⟨[Call.write b], by simp⟩

theorem Write_of_not_exceeds (r : SizeRotator) (fs : FS) (env : Env) (b : List Byte)
    (h : exceeds (discover r fs) b = false) :
    Write r fs env b = reopenAndWrite env (discover r fs) fs b (discoverCalls r) := by
  simp [Write, h]

theorem Write_of_exceeds (r : SizeRotator) (fs : FS) (env : Env) (b : List Byte)
    (h : exceeds (discover r fs) b = true) :
    Write r fs env b =
      match (rotate env (discover r fs) fs).ret with
      | some e => ⟨0, some e, (rotate env (discover r fs) fs).r,
          (rotate env (discover r fs) fs).fs,
          discoverCalls r ++ (rotate env (discover r fs) fs).calls⟩
      | none => reopenAndWrite env (rotate env (discover r fs) fs).r
          (rotate env (discover r fs) fs).fs b
          (discoverCalls r ++ (rotate env (discover r fs) fs).calls) := by
  simp [Write, h]

/-- The record of a `Write` that does not rotate. -/
theorem Write_calls_of_not_exceeds (r : SizeRotator) (fs : FS) (env : Env) (b : List Byte)
    (h : exceeds (discover r fs) b = false) :
    ∃ extra, (Write r fs env b).calls = discoverCalls r ++ extra ∧
      ∀ c ∈ extra, c = Call.openFile r.path ∨ c = Call.write b := by
  rw [Write_of_not_exceeds r fs env b h]
  simpa using reopenAndWrite_calls env (discover r fs) fs b (discoverCalls r)

/-- The record of a `Write` that enters the rotation branch. -/
theorem Write_calls_of_exceeds (r : SizeRotator) (fs : FS) (env : Env) (b : List Byte)
    (h : exceeds (discover r fs) b = true) :
    ∃ extra, (Write r fs env b).calls =
        discoverCalls r ++ (rotate env (discover r fs) fs).calls ++ extra ∧
      ∀ c ∈ extra, c = Call.openFile r.path ∨ c = Call.write b := by
  rw [Write_of_exceeds r fs env b h]
  cases hret : (rotate env (discover r fs) fs).ret with
  | some e => exact ⟨[], by simp⟩
  | none =>
    have hp : (rotate env (discover r fs) fs).r.path = r.path := by
      rw [rotate, (rotateFrom_fields env (discover r fs) fs _ _).1, discover_path]
    simpa [hp] using reopenAndWrite_calls env (rotate env (discover r fs) fs).r
      (rotate env (discover r fs) fs).fs b
      (discoverCalls r ++ (rotate env (discover r fs) fs).calls)

theorem Env.accepted_le (env : Env) (len : Nat) : env.accepted len ≤ len := by
  unfold Env.accepted
  cases env.writeLimit <;> simp

/-- A write to the handle that returns no error was made on an open handle
and got every byte through. -/
theorem File.Write_ok (f : File) (env : Env) (fs : FS) (p : Str) (b : List Byte)
    (h : (f.Write env fs p b).2.1 = none) :
    f.closed = false ∧ (f.Write env fs p b).1 = b.length ∧
      (f.Write env fs p b).2.2 =
        (match fs p with
          | none => fs
          | some c => fs.set p (some (c ++ b))) := by
  unfold File.Write at h ⊢
  cases hc : f.closed with
  | true => simp [hc] at h
  | false =>
    simp only [hc, Bool.false_eq_true, if_false] at h ⊢
    have hle := Env.accepted_le env b.length
    have hn : env.accepted b.length = b.length := by
      by_cases hlt : env.accepted b.length < b.length
      · simp [hlt] at h
      · omega
    simp [hn]

/-- Lines 84-94 on an existing file, when they return no error: the payload is
appended whole. -/
theorem reopenAndWrite_ok {env : Env} {r : SizeRotator} {fs : FS} {b : List Byte}
    {calls : List Call} {c : List Byte} (hc : fs r.path = some c)
    (h : (reopenAndWrite env r fs b calls).err = none) :
    (reopenAndWrite env r fs b calls).n = b.length ∧
      (reopenAndWrite env r fs b calls).fs = fs.set r.path (some (c ++ b)) := by
  unfold reopenAndWrite at h ⊢
  cases hf : r.file with
  | none =>
    cases ho : env.openErr with
    | some e => simp [hf, OpenFile, ho] at h
    | none =>
      simp only [hf, OpenFile, ho, hc] at h ⊢
      obtain ⟨_, h2, h3⟩ := File.Write_ok ⟨false⟩ env fs r.path b h
      exact ⟨h2, by rw [h3, hc]⟩
  | some f =>
    simp only [hf] at h ⊢
    obtain ⟨_, h2, h3⟩ := File.Write_ok f env fs r.path b h
    exact ⟨h2, by rw [h3, hc]⟩

/-- A `Write` that does not enter the rotation branch renames nothing and
looks up no candidate name. -/
theorem Write_no_rename_of_not_exceeds (r : SizeRotator) (fs : FS) (env : Env)
    (b : List Byte) (hex : exceeds (discover r fs) b = false) :
    (∀ a t, Call.rename a t ∉ (Write r fs env b).calls) ∧
    (∀ p, Call.lstat p ∉ (Write r fs env b).calls.drop (discoverCalls r).length) := by
  obtain ⟨extra, hcalls, hextra⟩ := Write_calls_of_not_exceeds r fs env b hex
  constructor
  · intro a t hmem
    rw [hcalls, List.mem_append] at hmem
    rcases hmem with hmem | hmem
    · unfold discoverCalls at hmem
      cases hf : r.file <;> simp [hf] at hmem
    · rcases hextra _ hmem with h | h <;> cases h
  · intro p hmem
    rw [hcalls, List.drop_left] at hmem
    rcases hextra _ hmem with h | h <;> cases h

/-- A rename in the record of a `Write` was recorded by the loop, in the
rotation branch. -/
theorem rename_mem_Write {r : SizeRotator} {fs : FS} {env : Env} {b : List Byte}
    {a t : Str} (h : Call.rename a t ∈ (Write r fs env b).calls) :
    exceeds (discover r fs) b = true ∧
      Call.rename a t ∈ (rotate env (discover r fs) fs).calls := by
  cases hex : exceeds (discover r fs) b with
  | false => exact absurd h ((Write_no_rename_of_not_exceeds r fs env b hex).1 _ _)
  | true =>
    refine ⟨rfl, ?_⟩
    obtain ⟨extra, hcalls, hextra⟩ := Write_calls_of_exceeds r fs env b hex
    rw [hcalls, List.mem_append, List.mem_append] at h
    rcases h with (h | h) | h
    · unfold discoverCalls at h
      cases hf : r.file <;> simp [hf] at h
    · exact h
    · rcases hextra _ h with h' | h' <;> cases h'

/-- Lines 84-94 with no handle and no file at `path`, when they return no
error: the file is created and holds the payload. -/
theorem reopenAndWrite_new {env : Env} {r : SizeRotator} {fs : FS} {b : List Byte}
    {calls : List Call} (hf : r.file = none) (hc : fs r.path = none)
    (h : (reopenAndWrite env r fs b calls).err = none) :
    (reopenAndWrite env r fs b calls).n = b.length ∧
      (reopenAndWrite env r fs b calls).fs = fs.set r.path (some b) ∧
      (reopenAndWrite env r fs b calls).r.file = some ⟨false⟩ ∧
      (reopenAndWrite env r fs b calls).r.totalSize = wrapInt64 (0 + (b.length : Int)) := by
  unfold reopenAndWrite at h ⊢
  cases ho : env.openErr with
  | some e => simp [hf, OpenFile, ho] at h
  | none =>
    simp only [hf, OpenFile, ho, hc] at h ⊢
    obtain ⟨_, h2, h3⟩ := File.Write_ok ⟨false⟩ env (fs.set r.path (some [])) r.path b h
    refine ⟨h2, ?_, trivial, ?_⟩
    · rw [h3]
      funext q
      by_cases hq : q = r.path <;> simp [FS.set, hq]
    · rw [h2]

/-- A `Write` that renamed `path` to `t` and returned no error: what it found
and what it left. -/
theorem Write_rotated {r : SizeRotator} {fs : FS} {env : Env} {b : List Byte}
    {a t : Str} (hren : Call.rename a t ∈ (Write r fs env b).calls)
    (herr : (Write r fs env b).err = none) :
    a = r.path ∧ t ≠ r.path ∧ fs t = none ∧
      ∃ c, fs r.path = some c ∧
        (Write r fs env b).n = b.length ∧
        (Write r fs env b).fs = ((fs.set r.path none).set t (some c)).set r.path (some b) ∧
        (Write r fs env b).r.file = some ⟨false⟩ ∧
        (Write r fs env b).r.totalSize = wrapInt64 (0 + (b.length : Int)) := by
  obtain ⟨hex, hmem⟩ := rename_mem_Write hren
  obtain ⟨ha, hfree, _, hr, hret, hfs⟩ :=
    rotateFrom_rename_mem env (discover r fs) fs _ _ _ _ hmem
  simp only [discover_path] at ha hret hfs
  rw [Write_of_exceeds r fs env b hex] at herr ⊢
  change (rotate env (discover r fs) fs).r = _ at hr
  change (rotate env (discover r fs) fs).ret = _ at hret
  change (rotate env (discover r fs) fs).fs = _ at hfs
  cases hc : fs r.path with
  | none =>
    simp [Rename, hc] at hret
    simp [hret] at herr
  | some c =>
    have hne : t ≠ r.path := by
      intro heq
      rw [heq, hc] at hfree
      cases hfree
    cases hre : env.renameErr with
    | some e =>
      simp [Rename, hc, hre] at hret
      simp [hret] at herr
    | none =>
      simp only [Rename, hc, hre] at hret hfs
      simp only [hret] at herr ⊢
      have hp : (rotate env (discover r fs) fs).r.path = r.path := by rw [hr]; simp
      have hfile : (rotate env (discover r fs) fs).r.file = none := by rw [hr]
      have habs : (rotate env (discover r fs) fs).fs (rotate env (discover r fs) fs).r.path
          = none := by
        rw [hfs, hp, FS.set_other _ _ (Ne.symm hne), FS.set_same]
      obtain ⟨h1, h2, h3, h4⟩ := reopenAndWrite_new hfile habs herr
      refine ⟨ha, hne, hfree, c, rfl, h1, ?_, h3, h4⟩
      rw [h2, hfs, hp]

/-- The number of bytes lines 84-94 return is at most the payload length. -/
theorem reopenAndWrite_n_le (env : Env) (r : SizeRotator) (fs : FS) (b : List Byte)
    (calls : List Call) : (reopenAndWrite env r fs b calls).n ≤ b.length := by
  have hle := Env.accepted_le env b.length
  unfold reopenAndWrite
  cases hf : r.file with
  | none =>
    cases ho : OpenFile env fs r.path with
    | error e => simp
    | ok v =>
      obtain ⟨f, fs1⟩ := v
      simp only [File.Write]
      cases f.closed <;> simp [hle]
  | some f =>
    simp only [File.Write]
    cases f.closed <;> simp [hle]

/-- A `Write` on a writer that holds a handle and does not rotate adds the
returned count to `totalSize` and keeps the handle. -/
theorem Write_step_open (r : SizeRotator) (fs : FS) (env : Env) (b : List Byte) (f : File)
    (hf : r.file = some f) (h0 : 0 ≤ r.totalSize) (hL : r.RotationSize < 2 ^ 63)
    (hfit : (discover r fs).totalSize + (b.length : Int) ≤ r.RotationSize) :
    (Write r fs env b).r.totalSize = r.totalSize + ((Write r fs env b).n : Int) ∧
    (Write r fs env b).r.file = some f ∧
    (Write r fs env b).r.RotationSize = r.RotationSize := by
  have hd : discover r fs = r := by simp [discover, hf]
  rw [hd] at hfit
  have hex : exceeds (discover r fs) b = false := by
    rw [hd]
    simp only [exceeds, decide_eq_false_iff_not]
    rw [wrapInt64_eq (by omega) (by omega)]
    omega
  have hn := reopenAndWrite_n_le env r fs b (discoverCalls r)
  rw [Write_of_not_exceeds r fs env b hex, hd]
  rw [hd] at hex
  unfold reopenAndWrite at hn ⊢
  simp only [hf] at hn ⊢
  refine ⟨?_, trivial, trivial⟩
  rw [wrapInt64_eq (by omega) (by omega)]

/-- The size after discovery is non-negative if `totalSize` was. -/
theorem discover_totalSize_nonneg (r : SizeRotator) (fs : FS) (h0 : 0 ≤ r.totalSize) :
    0 ≤ (discover r fs).totalSize := by
  unfold discover
  cases hf : r.file with
  | some f => exact h0
  | none =>
    cases hc : fs r.path with
    | none => simpa [Lstat, hc] using h0
    | some c => simp [Lstat, hc]

/-- Lines 84-94 on a writer without handle, when the open succeeds. -/
theorem reopenAndWrite_nil (env : Env) (r : SizeRotator) (fs : FS) (b : List Byte)
    (calls : List Call) (hf : r.file = none) (ho : env.openErr = none) :
    (reopenAndWrite env r fs b calls).r.totalSize =
      wrapInt64 (0 + ((reopenAndWrite env r fs b calls).n : Int)) ∧
    (reopenAndWrite env r fs b calls).r.file = some ⟨false⟩ ∧
    (reopenAndWrite env r fs b calls).r.RotationSize = r.RotationSize := by
  obtain ⟨fs1, hopen⟩ : ∃ fs1, OpenFile env fs r.path = Except.ok (⟨false⟩, fs1) := by
    unfold OpenFile
    simp only [ho]
    cases fs r.path <;> exact ⟨_, rfl⟩
  unfold reopenAndWrite
  simp only [hf, hopen]
  trivial

/-- A `Write` on a writer without handle that does not rotate and opens the
file leaves `totalSize` equal to the returned count, and holds a handle. -/
theorem Write_step_nil (r : SizeRotator) (fs : FS) (env : Env) (b : List Byte)
    (hf : r.file = none) (ho : env.openErr = none) (h0 : 0 ≤ r.totalSize)
    (hL : r.RotationSize < 2 ^ 63)
    (hfit : (discover r fs).totalSize + (b.length : Int) ≤ r.RotationSize) :
    (Write r fs env b).r.totalSize = ((Write r fs env b).n : Int) ∧
    (Write r fs env b).r.file = some ⟨false⟩ ∧
    (Write r fs env b).r.RotationSize = r.RotationSize := by
  have hs := discover_totalSize_nonneg r fs h0
  have hex : exceeds (discover r fs) b = false := by
    simp only [exceeds, discover_RotationSize, decide_eq_false_iff_not]
    rw [wrapInt64_eq (by omega) (by omega)]
    omega
  have hn := reopenAndWrite_n_le env (discover r fs) fs b (discoverCalls r)
  obtain ⟨h1, h2, h3⟩ := reopenAndWrite_nil env (discover r fs) fs b (discoverCalls r)
    (by simp [hf]) ho
  rw [Write_of_not_exceeds r fs env b hex]
  refine ⟨?_, h2, by rw [h3, discover_RotationSize]⟩
  rw [h1, wrapInt64_eq (by omega) (by omega)]
  omega

/-- On a writer that holds a handle, a sequence of writes none of which
rotates adds the returned counts to `totalSize`. -/
theorem afterWrites_totalSize_open :
    ∀ (ws : List (Env × List Byte)) (r : SizeRotator) (fs : FS) (f : File),
      r.file = some f → 0 ≤ r.totalSize → r.RotationSize < 2 ^ 63 → noRotation r fs ws →
      (afterWrites r fs ws).1.totalSize = r.totalSize + ((returned r fs ws).sum : Nat) := by
  intro ws
  induction ws with
  | nil =>
    intro r fs f _ _ _ _
    simp [afterWrites, returned]
  | cons w ws ih =>
    intro r fs f hf h0 hL hnr
    obtain ⟨env, b⟩ := w
    obtain ⟨hfit, hrest⟩ := hnr
    obtain ⟨h1, h2, h3⟩ := Write_step_open r fs env b f hf h0 hL hfit
    have h0' : 0 ≤ (Write r fs env b).r.totalSize := by rw [h1]; omega
    have := ih (Write r fs env b).r (Write r fs env b).fs f h2 h0' (by rw [h3]; exact hL) hrest
    simp only [afterWrites, returned, List.sum_cons]
    rw [this, h1]
    push_cast
    omega

/-! ## Frame lemmas -/

/-- The loop only looks names up, closes the handle and renames `path`. -/
theorem rotateFrom_calls_kind (env : Env) (r : SizeRotator) (fs : FS) :
    ∀ (k : Nat) (i : Int) (c : Call), c ∈ (rotateFrom env r fs k i).calls →
      (∃ p, c = Call.lstat p) ∨ c = Call.close ∨ ∃ t, c = Call.rename r.path t := by
  intro k
  induction k with
  | zero =>
    intro i c h
    simp [rotateFrom] at h
  | succ k ih =>
    intro i c h
    cases hl : Lstat fs (renamedPath r.path i r.MaxRotation) with
    | none =>
      have hc : c = Call.lstat (renamedPath r.path i r.MaxRotation) ∨ c = Call.close ∨
          c = Call.rename r.path (renamedPath r.path i r.MaxRotation) := by
        cases hr : Rename env fs r.path (renamedPath r.path i r.MaxRotation) <;>
          cases hf : r.file <;> simp [rotateFrom, hl, hr, hf] at h <;> tauto
      rcases hc with hc | hc | hc
      · exact Or.inl ⟨_, hc⟩
      · exact Or.inr (Or.inl hc)
      · exact Or.inr (Or.inr ⟨_, hc⟩)
    | some sz =>
      by_cases hM : i = r.MaxRotation
      · subst hM
        simp only [rotateFrom, hl, if_true, List.mem_singleton] at h
        exact Or.inl ⟨_, h⟩
      · simp only [rotateFrom, hl, hM, if_false, List.mem_cons] at h
        rcases h with h | h
        · exact Or.inl ⟨_, h⟩
        · exact ih (i + 1) c h

/-- The loop changes no name other than `path` and the target of its
rename. -/
theorem rotateFrom_fs_frame (env : Env) (r : SizeRotator) (fs : FS) :
    ∀ (k : Nat) (i : Int) (q : Str), q ≠ r.path →
      (∀ t, Call.rename r.path t ∈ (rotateFrom env r fs k i).calls → q ≠ t) →
      (rotateFrom env r fs k i).fs q = fs q := by
  intro k
  induction k with
  | zero =>
    intro i q _ _
    simp [rotateFrom]
  | succ k ih =>
    intro i q hq ht
    cases hl : Lstat fs (renamedPath r.path i r.MaxRotation) with
    | none =>
      cases hc : fs r.path with
      | none => simp [rotateFrom, hl, Rename, hc]
      | some c =>
        cases hre : env.renameErr with
        | some e => simp [rotateFrom, hl, Rename, hc, hre]
        | none =>
          have hqt : q ≠ renamedPath r.path i r.MaxRotation := by
            apply ht
            simp [rotateFrom, hl, Rename, hc, hre]
          simp only [rotateFrom, hl, Rename, hc, hre]
          rw [FS.set_other _ _ hqt, FS.set_other _ _ hq]
    | some sz =>
      by_cases hM : i = r.MaxRotation
      · subst hM
        simp [rotateFrom, hl]
      · simp only [rotateFrom, hl, hM, if_false] at ht ⊢
        apply ih (i + 1) q hq
        intro t hmem
        exact ht t (List.mem_cons_of_mem _ hmem)

/-- Every content left by the loop was a content before it. -/
theorem rotateFrom_contents (env : Env) (r : SizeRotator) (fs : FS) :
    ∀ (k : Nat) (i : Int) (q : Str) (c : List Byte),
      (rotateFrom env r fs k i).fs q = some c → ∃ p, fs p = some c := by
  intro k
  induction k with
  | zero =>
    intro i q c h
    exact ⟨q, by simpa [rotateFrom] using h⟩
  | succ k ih =>
    intro i q c h
    cases hl : Lstat fs (renamedPath r.path i r.MaxRotation) with
    | none =>
      cases hc : fs r.path with
      | none => exact ⟨q, by simpa [rotateFrom, hl, Rename, hc] using h⟩
      | some c0 =>
        cases hre : env.renameErr with
        | some e => exact ⟨q, by simpa [rotateFrom, hl, Rename, hc, hre] using h⟩
        | none =>
          simp only [rotateFrom, hl, Rename, hc, hre] at h
          by_cases h1 : q = renamedPath r.path i r.MaxRotation
          · subst h1
            rw [FS.set_same] at h
            exact ⟨r.path, by rw [hc, h]⟩
          · rw [FS.set_other _ _ h1] at h
            by_cases h2 : q = r.path
            · subst h2
              rw [FS.set_same] at h
              cases h
            · rw [FS.set_other _ _ h2] at h
              exact ⟨q, h⟩
    | some sz =>
      by_cases hM : i = r.MaxRotation
      · subst hM
        exact ⟨q, by simpa [rotateFrom, hl] using h⟩
      · simp only [rotateFrom, hl, hM, if_false] at h
        exact ih (i + 1) q c h

/-- Lines 84-94 change no name other than `path`. -/
theorem reopenAndWrite_other (env : Env) (r : SizeRotator) (fs : FS) (b : List Byte)
    (calls : List Call) (q : Str) (hq : q ≠ r.path) :
    (reopenAndWrite env r fs b calls).fs q = fs q := by
  have hw : ∀ (f : File) (fs0 : FS), (f.Write env fs0 r.path b).2.2 q = fs0 q := by
    intro f fs0
    unfold File.Write
    cases f.closed
    · cases hc : fs0 r.path <;> simp [hc, FS.set_other _ _ hq]
    · simp
  unfold reopenAndWrite
  cases hf : r.file with
  | none =>
    cases ho : env.openErr with
    | some e => simp [OpenFile, ho]
    | none =>
      cases hc : fs r.path with
      | none =>
        simp only [OpenFile, ho, hc]
        rw [hw, FS.set_other _ _ hq]
      | some c =>
        simp only [OpenFile, ho, hc]
        rw [hw]
  | some f =>
    simp only []
    rw [hw]

/-- Lines 84-94 when the open fails: nothing is written. -/
theorem reopenAndWrite_open_fails (env : Env) (r : SizeRotator) (fs : FS) (b : List Byte)
    (calls : List Call) (e : Error) (hf : r.file = none) (ho : env.openErr = some e) :
    reopenAndWrite env r fs b calls = ⟨0, some e, r, fs, calls ++ [Call.openFile r.path]⟩ := by
  simp [reopenAndWrite, hf, OpenFile, ho]

/-- Lines 84-94 with a handle: the only call is the write. -/
theorem reopenAndWrite_calls_some (env : Env) (r : SizeRotator) (fs : FS) (b : List Byte)
    (calls : List Call) (f : File) (hf : r.file = some f) :
    (reopenAndWrite env r fs b calls).calls = calls ++ [Call.write b] := by
  simp [reopenAndWrite, hf]

/-- The shape of every `Write`: a first part that only looks names up, closes
the handle and renames `path`, after which `Write` either returns an error
with 0 bytes or runs lines 84-94. -/
theorem Write_normal_form (r : SizeRotator) (fs : FS) (env : Env) (b : List Byte) :
    ∃ (r1 : SizeRotator) (fs1 : FS) (pre : List Call),
      r1.path = r.path ∧
      (∀ c ∈ pre, (∃ p, c = Call.lstat p) ∨ c = Call.close ∨
        ∃ t, c = Call.rename r.path t) ∧
      (∀ q, q ≠ r.path → (∀ t, Call.rename r.path t ∈ pre → q ≠ t) → fs1 q = fs q) ∧
      (∀ q c, fs1 q = some c → ∃ p, fs p = some c) ∧
      ((∃ e, Write r fs env b = ⟨0, some e, r1, fs1, pre⟩) ∨
        Write r fs env b = reopenAndWrite env r1 fs1 b pre) := by
  have hd : ∀ c ∈ discoverCalls r, (∃ p, c = Call.lstat p) ∨ c = Call.close ∨
      ∃ t, c = Call.rename r.path t := by
    intro c hc
    unfold discoverCalls at hc
    cases hf : r.file with
    | none =>
      simp only [hf, List.mem_singleton] at hc
      exact Or.inl ⟨_, hc⟩
    | some f => simp [hf] at hc
  cases hex : exceeds (discover r fs) b with
  | false =>
    refine ⟨discover r fs, fs, discoverCalls r, discover_path r fs, hd,
      fun q _ _ => rfl, fun q c h => ⟨q, h⟩, Or.inr (Write_of_not_exceeds r fs env b hex)⟩
  | true =>
    have hk := rotateFrom_calls_kind env (discover r fs) fs (discover r fs).MaxRotation.toNat 1
    have hfr := rotateFrom_fs_frame env (discover r fs) fs (discover r fs).MaxRotation.toNat 1
    have hct := rotateFrom_contents env (discover r fs) fs (discover r fs).MaxRotation.toNat 1
    have hp := (rotateFrom_fields env (discover r fs) fs (discover r fs).MaxRotation.toNat 1).1
    simp only [discover_path] at hk hfr hp
    refine ⟨(rotate env (discover r fs) fs).r, (rotate env (discover r fs) fs).fs,
      discoverCalls r ++ (rotate env (discover r fs) fs).calls, hp, ?_, ?_, hct, ?_⟩
    · intro c hc
      rcases List.mem_append.mp hc with hc | hc
      · exact hd c hc
      · exact hk c hc
    · intro q hq ht
      exact hfr q hq (fun t hmem => ht t (List.mem_append_right _ hmem))
    · rw [Write_of_exceeds r fs env b hex]
      cases hret : (rotate env (discover r fs) fs).ret with
      | some e => exact Or.inl ⟨e, rfl⟩
      | none => exact Or.inr rfl

/-- With `MaxRotation <= 0` the loop body never runs, so `Write` is the
discovery step followed by lines 84-94. -/
theorem Write_of_nonpos (r : SizeRotator) (fs : FS) (env : Env) (b : List Byte)
    (hM : r.MaxRotation ≤ 0) :
    Write r fs env b = reopenAndWrite env (discover r fs) fs b (discoverCalls r) := by
  cases hex : exceeds (discover r fs) b with
  | false => exact Write_of_not_exceeds r fs env b hex
  | true =>
    have hk : r.MaxRotation.toNat = 0 := by omega
    have hrot : rotate env (discover r fs) fs = ⟨discover r fs, fs, [], none⟩ := by
      simp [rotate, hk, rotateFrom]
    rw [Write_of_exceeds r fs env b hex, hrot]
    simp

/-- Lines 84-94 when no call fails, on a writer whose handle is not closed
and whose file exists: the payload is appended and the handle is open. -/
theorem reopenAndWrite_envok (r : SizeRotator) (fs : FS) (b : List Byte)
    (calls : List Call) (c : List Byte) (hfile : r.file ≠ some ⟨true⟩)
    (hc : fs r.path = some c) :
    (reopenAndWrite Env.ok r fs b calls).err = none ∧
    (reopenAndWrite Env.ok r fs b calls).fs = fs.set r.path (some (c ++ b)) ∧
    (reopenAndWrite Env.ok r fs b calls).r.file = some ⟨false⟩ ∧
    (reopenAndWrite Env.ok r fs b calls).r.path = r.path ∧
    (reopenAndWrite Env.ok r fs b calls).r.MaxRotation = r.MaxRotation := by
  unfold reopenAndWrite
  cases hf : r.file with
  | none =>
    simp [OpenFile, Env.ok, hc, File.Write, Env.accepted]
  | some f =>
    have hcl : f = ⟨false⟩ := by
      cases f with
      | mk cl =>
        cases cl
        · rfl
        · exact absurd hf hfile
    subst hcl
    simp [hc, File.Write, Env.ok, Env.accepted]

/-! ## Decimal digits -/

/-- The digits written by `Nat.toDigits`, in terms of `Nat.digits`. -/
theorem toDigitsCore_eq :
    ∀ (fuel n : Nat) (ds : List Char), n < fuel →
      Nat.toDigitsCore 10 fuel n ds =
        (if n = 0 then ['0'] else ((Nat.digits 10 n).map Nat.digitChar).reverse) ++ ds := by
  intro fuel
  induction fuel with
  | zero =>
    intro n ds h
    omega
  | succ fuel ih =>
    intro n ds h
    by_cases hq : n / 10 = 0
    · have hlt : n < 10 := by omega
      by_cases h0 : n = 0
      · subst h0
        simp [Nat.toDigitsCore, Nat.digitChar]
      · have hd := Nat.digits_of_lt 10 n h0 hlt
        simp [Nat.toDigitsCore, hq, h0, hd, Nat.mod_eq_of_lt hlt]
    · have h0 : n ≠ 0 := by
        intro h0
        subst h0
        simp at hq
      have hd := Nat.digits_def' (by decide : 1 < 10) (Nat.pos_of_ne_zero h0)
      have hrec := ih (n / 10) (Nat.digitChar (n % 10) :: ds) (by omega)
      simp only [Nat.toDigitsCore, hq, if_false, hrec, h0]
      rw [hd]
      simp

theorem toDigits_pos {n : Nat} (h : 0 < n) :
    Nat.toDigits 10 n = ((Nat.digits 10 n).map Nat.digitChar).reverse := by
  have h0 : n ≠ 0 := by omega
  simp [Nat.toDigits, toDigitsCore_eq (n + 1) n [] (by omega), h0]

/-- For a positive number, `Itoa` writes its decimal digits. -/
theorem Itoa_pos {i : Int} (h : 1 ≤ i) :
    Itoa i = ((Nat.digits 10 i.toNat).map Nat.digitChar).reverse := by
  obtain ⟨n, rfl⟩ : ∃ n : Nat, i = (n : Int) := ⟨i.toNat, by omega⟩
  have hn : 0 < n := by omega
  simpa [Itoa] using toDigits_pos hn

theorem Itoa_length_pos {i : Int} (h : 1 ≤ i) :
    (Itoa i).length = (Nat.digits 10 i.toNat).length := by
  simp [Itoa_pos h]

/-- A smaller index is not longer than the maximum. -/
theorem Itoa_length_le {i m : Int} (h1 : 1 ≤ i) (h2 : i ≤ m) :
    (Itoa i).length ≤ (Itoa m).length := by
  rw [Itoa_length_pos h1, Itoa_length_pos (by omega : 1 ≤ m)]
  exact Nat.le_digits_len_le 10 _ _ (by omega)

theorem digitValue_digitChar {d : Nat} (h : d < 10) : digitValue (Nat.digitChar d) = some d := by
  interval_cases d <;> decide

theorem decimalFrom_append (acc : Nat) (xs ys : Str) :
    decimalFrom acc (xs ++ ys) = (decimalFrom acc xs).bind (fun a => decimalFrom a ys) := by
  induction xs generalizing acc with
  | nil => simp [decimalFrom]
  | cons c cs ih =>
    simp only [List.cons_append, decimalFrom]
    cases digitValue c with
    | none => simp
    | some d => exact ih _

theorem decimalFrom_zeros (k : Nat) (s : Str) :
    decimalFrom 0 (List.replicate k '0' ++ s) = decimalFrom 0 s := by
  induction k with
  | zero => simp
  | succ k ih =>
    have h0 : digitValue '0' = some 0 := by decide
    simp only [List.replicate_succ, List.cons_append, decimalFrom, h0]
    exact ih

theorem decimalFrom_digits (L : List Nat) (hL : ∀ d ∈ L, d < 10) (acc : Nat) :
    decimalFrom acc ((L.map Nat.digitChar).reverse) =
      some (acc * 10 ^ L.length + Nat.ofDigits 10 L) := by
  induction L with
  | nil => simp [decimalFrom]
  | cons d L ih =>
    have hd : d < 10 := hL d (List.mem_cons_self _ _)
    have hL' : ∀ x ∈ L, x < 10 := fun x hx => hL x (List.mem_cons_of_mem _ hx)
    simp only [List.map_cons, List.reverse_cons, decimalFrom_append, ih hL',
      Option.some_bind, decimalFrom, digitValue_digitChar hd, Nat.ofDigits_cons,
      List.length_cons]
    congr 1
    rw [pow_succ]
    ring

/-- Zeros followed by the digits of a positive number read back as that
number. -/
theorem decimalValue_padded (k : Nat) {i : Int} (h : 1 ≤ i) :
    decimalValue (List.replicate k '0' ++ Itoa i) = some i.toNat := by
  have hne : Itoa i ≠ [] := by
    intro h0
    have := Itoa_length_pos h
    rw [h0] at this
    have hpos : 0 < i.toNat := by omega
    have hnil : Nat.digits 10 i.toNat ≠ [] :=
      Nat.digits_ne_nil_iff_ne_zero.mpr (Nat.pos_iff_ne_zero.mp hpos)
    apply hnil
    apply List.eq_nil_of_length_eq_zero
    rw [← this]
    rfl
  have hne' : List.replicate k '0' ++ Itoa i ≠ [] := by simp [hne]
  simp only [decimalValue, hne', if_false, decimalFrom_zeros]
  rw [Itoa_pos h, decimalFrom_digits _ (fun d hd => Nat.digits_lt_base (by decide) hd)]
  simp [Nat.ofDigits_digits]

/-- The padded index of the source, for an index within the maximum. -/
theorem paddedIndex_of_le {i m : Int} (h1 : 1 ≤ i) (h2 : i ≤ m) :
    paddedIndex i m =
      List.replicate ((Itoa m).length - (Itoa i).length) '0' ++ Itoa i := by
  have hle := Itoa_length_le h1 h2
  rw [paddedIndex_eq]
  obtain ⟨k, hk⟩ : ∃ k, (Itoa m).length = k + (Itoa i).length :=
    ⟨(Itoa m).length - (Itoa i).length, by omega⟩
  rw [hk, Nat.add_sub_cancel]
  have hsplit : List.replicate (k + (Itoa i).length) '0' =
      List.replicate (Itoa i).length '0' ++ List.replicate k '0' := by
    rw [Nat.add_comm, List.replicate_add]
  rw [hsplit, List.append_assoc, List.drop_left']
  simp

/-- A `Write` on a closed handle that does not enter the rotation branch
fails with `os.ErrClosed` and changes nothing but the record. -/
theorem Write_closed_step (r : SizeRotator) (fs : FS) (env : Env) (b : List Byte)
    (hf : r.file = some ⟨true⟩) (hex : exceeds (discover r fs) b = false) :
    (Write r fs env b).n = 0 ∧ (Write r fs env b).err = some Error.closed ∧
    (Write r fs env b).fs = fs ∧ (Write r fs env b).r.file = some ⟨true⟩ ∧
    (Write r fs env b).calls = [Call.write b] := by
  have hd : discover r fs = r := by simp [discover, hf]
  rw [Write_of_not_exceeds r fs env b hex, hd]
  simp [reopenAndWrite, hf, File.Write, discoverCalls]

/-- Lines 84-94 on a writer without handle call `os.OpenFile`. -/
theorem reopenAndWrite_opens (env : Env) (r : SizeRotator) (fs : FS) (b : List Byte)
    (calls : List Call) (hf : r.file = none) :
    Call.openFile r.path ∈ (reopenAndWrite env r fs b calls).calls := by
  unfold reopenAndWrite
  cases ho : OpenFile env fs r.path with
  | error e => simp [hf, ho]
  | ok v => simp [hf, ho]

/-- Lines 84-94 on a writer without handle do not leave a closed handle. -/
theorem reopenAndWrite_not_closed (env : Env) (r : SizeRotator) (fs : FS) (b : List Byte)
    (calls : List Call) (hf : r.file = none) :
    (reopenAndWrite env r fs b calls).r.file ≠ some ⟨true⟩ := by
  cases ho : env.openErr with
  | some e =>
    rw [reopenAndWrite_open_fails env r fs b calls e hf ho]
    simp [hf]
  | none =>
    rw [(reopenAndWrite_nil env r fs b calls hf ho).2.1]
    simp

/-- A `Write` on a closed handle that is not sent to a free slot returns an
error and 0 bytes, changes no file, opens and renames nothing, and leaves the
handle closed. -/
theorem Write_closed_noslot (r : SizeRotator) (fs : FS) (env : Env) (b : List Byte)
    (hf : r.file = some ⟨true⟩) (hno : ¬ findsSlot r fs b) :
    (Write r fs env b).n = 0 ∧
    ((Write r fs env b).err = some Error.closed ∨
      (Write r fs env b).err = some Error.rotationExceeded) ∧
    (Write r fs env b).fs = fs ∧ (Write r fs env b).r.file = some ⟨true⟩ ∧
    (∀ p, Call.openFile p ∉ (Write r fs env b).calls) ∧
    (∀ a t, Call.rename a t ∉ (Write r fs env b).calls) := by
  have hd : discover r fs = r := by simp [discover, hf]
  have hdc : discoverCalls r = [] := by simp [discoverCalls, hf]
  have hwrite : reopenAndWrite env r fs b [] =
      ⟨0, some Error.closed, { r with totalSize := wrapInt64 (r.totalSize + ((0 : Nat) : Int)) },
        fs, [Call.write b]⟩ := by
    simp [reopenAndWrite, hf, File.Write]
  cases hex : exceeds (discover r fs) b with
  | false =>
    obtain ⟨h1, h2, h3, h4, h5⟩ := Write_closed_step r fs env b hf hex
    refine ⟨h1, Or.inl h2, h3, h4, ?_, ?_⟩ <;> intros <;> rw [h5] <;> simp
  | true =>
    have hocc : ∀ i : Int, 1 ≤ i → i ≤ r.MaxRotation →
        fs (renamedPath r.path i r.MaxRotation) ≠ none :=
      fun i h1 h2 h3 => hno ⟨hex, i, h1, h2, h3⟩
    by_cases hM : 1 ≤ r.MaxRotation
    · obtain ⟨h1, h2, h3, h4⟩ := rotateFrom_exhausted env (discover r fs) fs
        (discover r fs).MaxRotation.toNat 1 (by simp only [discover_MaxRotation]; omega)
        (by simp only [discover_MaxRotation]; omega) (by simpa using hocc)
      change (rotate env (discover r fs) fs).r = _ at h1
      change (rotate env (discover r fs) fs).fs = _ at h2
      change (rotate env (discover r fs) fs).ret = _ at h3
      change ∀ c ∈ (rotate env (discover r fs) fs).calls, _ at h4
      rw [Write_of_exceeds r fs env b hex]
      simp only [h3, h1, h2, hdc, List.nil_append, discover_file, hf]
      refine ⟨trivial, Or.inr trivial, trivial, trivial, ?_, ?_⟩
      · intro p hp
        obtain ⟨q, hq⟩ := h4 _ hp
        cases hq
      · intro a t hp
        obtain ⟨q, hq⟩ := h4 _ hp
        cases hq
    · rw [Write_of_nonpos r fs env b (by omega), hd, hdc, hwrite]
      simp [hf]

/-- A `Write` on a closed handle that is sent to a free slot renames `path`
and does not leave the handle closed. -/
theorem Write_closed_slot (r : SizeRotator) (fs : FS) (env : Env) (b : List Byte)
    (hs : findsSlot r fs b) :
    (Write r fs env b).r.file ≠ some ⟨true⟩ ∧
    ∃ t, Call.rename r.path t ∈ (Write r fs env b).calls := by
  obtain ⟨hex, j, hj1, hj2, hj3⟩ := hs
  obtain ⟨t, ht⟩ := rotateFrom_found env (discover r fs) fs (discover r fs).MaxRotation.toNat 1
    (by simp only [discover_MaxRotation]; omega)
    ⟨j, hj1, by simpa using hj2, by simpa using hj3⟩
  obtain ⟨_, _, _, hr, _, _⟩ := rotateFrom_rename_mem env (discover r fs) fs _ _ _ _ ht
  change Call.rename (discover r fs).path t ∈ (rotate env (discover r fs) fs).calls at ht
  change (rotate env (discover r fs) fs).r = _ at hr
  have hfile : (rotate env (discover r fs) fs).r.file = none := by rw [hr]
  obtain ⟨extra, hcalls, _⟩ := Write_calls_of_exceeds r fs env b hex
  refine ⟨?_, t, ?_⟩
  · rw [Write_of_exceeds r fs env b hex]
    cases hret : (rotate env (discover r fs) fs).ret with
    | some e => simp [hfile]
    | none => exact reopenAndWrite_not_closed env _ _ b _ hfile
  · rw [hcalls]
    simp only [discover_path] at ht
    simp [ht]

/-- A `Write` on a closed handle that does not call `os.OpenFile` returns an
error and 0 bytes. -/
theorem Write_closed_unopened (r : SizeRotator) (fs : FS) (env : Env) (b : List Byte)
    (hf : r.file = some ⟨true⟩) (hopen : Call.openFile r.path ∉ (Write r fs env b).calls) :
    (Write r fs env b).n = 0 ∧ (Write r fs env b).err ≠ none := by
  by_cases hs : findsSlot r fs b
  · obtain ⟨hex, j, hj1, hj2, hj3⟩ := hs
    obtain ⟨t, ht⟩ := rotateFrom_found env (discover r fs) fs
      (discover r fs).MaxRotation.toNat 1 (by simp only [discover_MaxRotation]; omega)
      ⟨j, hj1, by simpa using hj2, by simpa using hj3⟩
    obtain ⟨_, _, _, hr, _, _⟩ := rotateFrom_rename_mem env (discover r fs) fs _ _ _ _ ht
    change (rotate env (discover r fs) fs).r = _ at hr
    have hfile : (rotate env (discover r fs) fs).r.file = none := by rw [hr]
    have hp : (rotate env (discover r fs) fs).r.path = r.path := by rw [hr]; simp
    rw [Write_of_exceeds r fs env b hex] at hopen ⊢
    cases hret : (rotate env (discover r fs) fs).ret with
    | some e => simp
    | none =>
      simp only [hret] at hopen
      have := reopenAndWrite_opens env (rotate env (discover r fs) fs).r
        (rotate env (discover r fs) fs).fs b
        (discoverCalls r ++ (rotate env (discover r fs) fs).calls) hfile
      rw [hp] at this
      exact absurd this hopen
  · obtain ⟨h1, h2, _⟩ := Write_closed_noslot r fs env b hf hs
    refine ⟨h1, ?_⟩
    rcases h2 with h2 | h2 <;> rw [h2] <;> simp

/-! ## Claims -/

/-- C2 (rename then recreate). For every `Write` that renames `path` to a
target `t` and returns without error: afterwards the file at `t` holds exactly
the content the file at `path` had before the `Write`, and the file at `path`
holds exactly the payload of this `Write`. -/
theorem rename_then_recreate (r : SizeRotator) (fs : FS) (env : Env) (b : List Byte)
    (t : Str) (hren : Call.rename r.path t ∈ (Write r fs env b).calls)
    (herr : (Write r fs env b).err = none) :
    fs r.path ≠ none ∧ (Write r fs env b).fs t = fs r.path ∧
      (Write r fs env b).fs r.path = some b := by
  obtain ⟨_, hne, _, c, hc, _, hfs, _, _⟩ := Write_rotated hren herr
  refine ⟨by simp [hc], ?_, ?_⟩
  · rw [hfs, hc, FS.set_other _ _ hne, FS.set_same]
  · rw [hfs, FS.set_same]

/-- Witness of C2: a fresh writer with limit 10 over `a.log` holding 8 bytes,
payload of 6 bytes: `a.log` is renamed to `a_001.log`. -/
theorem rename_then_recreate_witness :
    Call.rename (freshALog 10).path "a_001.log".toList ∈
      (Write (freshALog 10) (onlyALog 8) Env.ok (bytesOf 6)).calls ∧
    (Write (freshALog 10) (onlyALog 8) Env.ok (bytesOf 6)).err = none ∧
    (Write (freshALog 10) (onlyALog 8) Env.ok (bytesOf 6)).fs "a_001.log".toList =
      onlyALog 8 (freshALog 10).path ∧
    (Write (freshALog 10) (onlyALog 8) Env.ok (bytesOf 6)).fs (freshALog 10).path =
      some (bytesOf 6) :=
  ⟨by decide, by decide,
    (rename_then_recreate (freshALog 10) (onlyALog 8) Env.ok (bytesOf 6) "a_001.log".toList
      (by decide) (by decide)).2⟩

/-- C3 (rotation slot search). Whenever a `Write` issues a rename, it renames
`path`, and the target is the candidate name of an index `i` in
`1..MaxRotation` that does not exist on disk before the `Write`, while the
candidate of every index `j` with `1 <= j < i` exists; the search begins at
index 1: the first call after the discovery step looks up the candidate of
index 1. -/
theorem rotation_slot_search (r : SizeRotator) (fs : FS) (env : Env) (b : List Byte)
    (a t : Str) (hren : Call.rename a t ∈ (Write r fs env b).calls) :
    a = r.path ∧
    (∃ i : Int, 1 ≤ i ∧ i ≤ r.MaxRotation ∧ t = renamedPath r.path i r.MaxRotation ∧
      fs (renamedPath r.path i r.MaxRotation) = none ∧
      ∀ j : Int, 1 ≤ j → j < i → fs (renamedPath r.path j r.MaxRotation) ≠ none) ∧
    (∃ rest, (Write r fs env b).calls =
      discoverCalls r ++ Call.lstat (renamedPath r.path 1 r.MaxRotation) :: rest) := by
  obtain ⟨hex, hmem⟩ := rename_mem_Write hren
  obtain ⟨ha, hfree, ⟨j, hj1, hj2, hj3, hj4⟩, _⟩ :=
    rotateFrom_rename_mem env (discover r fs) fs _ _ _ _ hmem
  simp only [discover_path, discover_MaxRotation] at ha hj2 hj3 hj4
  refine ⟨ha, ⟨j, hj1, by omega, hj3, by rw [← hj3]; exact hfree, hj4⟩, ?_⟩
  obtain ⟨extra, hcalls, _⟩ := Write_calls_of_exceeds r fs env b hex
  obtain ⟨k, hk⟩ : ∃ k, r.MaxRotation.toNat = k + 1 :=
    ⟨r.MaxRotation.toNat - 1, by omega⟩
  obtain ⟨rest, hrest⟩ := rotateFrom_head env (discover r fs) fs k 1
  simp only [discover_path, discover_MaxRotation] at hrest
  refine ⟨rest ++ extra, ?_⟩
  rw [hcalls]
  simp only [rotate, discover_MaxRotation, hk, hrest]
  simp

/-- Witness of C3: with `a_001.log` present, `a.log` goes to `a_002.log`. -/
theorem rotation_slot_search_witness :
    Call.rename aLog "a_002.log".toList ∈
      (Write (freshALog 10) ((onlyALog 8).set "a_001.log".toList (some [])) Env.ok
        (bytesOf 6)).calls ∧
    ∃ i : Int, 1 ≤ i ∧ i ≤ (freshALog 10).MaxRotation ∧
      "a_002.log".toList = renamedPath (freshALog 10).path i (freshALog 10).MaxRotation ∧
      ((onlyALog 8).set "a_001.log".toList (some []))
        (renamedPath (freshALog 10).path i (freshALog 10).MaxRotation) = none ∧
      ∀ j : Int, 1 ≤ j → j < i →
        ((onlyALog 8).set "a_001.log".toList (some []))
          (renamedPath (freshALog 10).path j (freshALog 10).MaxRotation) ≠ none :=
  ⟨by decide,
    (rotation_slot_search (freshALog 10) ((onlyALog 8).set "a_001.log".toList (some []))
      Env.ok (bytesOf 6) aLog "a_002.log".toList (by decide)).2.1⟩

/-- C4 (rotated-name format), evaluated at `debug.log` with index 1 and
`MaxRotation = 999`: the specification's words give `debug_001.log`, the
source gives `debu_001.log`, because `strings.TrimRight` removes every
trailing character that occurs in `.log`, and the `g` of `debug` is one. -/
theorem renamedPath_debug_log :
    Ext "debug.log".toList = ".log".toList ∧
    specRenamedPath "debug.log".toList 1 999 = "debug_001.log".toList ∧
    renamedPath "debug.log".toList 1 999 = "debu_001.log".toList ∧
    renamedPath "debug.log".toList 1 999 ≠ specRenamedPath "debug.log".toList 1 999 := by
  decide

/-- C6 (restart resynchronization). A writer freshly built by `NewSizeRotator`
with `RotationSize = L` over a path whose file holds `K` bytes, and one `Write`
of `d` bytes with `K + d <= L` that returns no error: the file at `path` then
holds the old content followed by the payload, so `K + d` bytes; no file is
renamed and no other file changes. -/
theorem restart_resynchronization (path : Str) (fs : FS) (env : Env) (c b : List Byte)
    (L : Int) (hL : L < 2 ^ 63) (hc : fs path = some c)
    (hKd : (c.length : Int) + (b.length : Int) ≤ L)
    (herr : (Write { NewSizeRotator path with RotationSize := L } fs env b).err = none) :
    (Write { NewSizeRotator path with RotationSize := L } fs env b).fs path = some (c ++ b) ∧
    ((Write { NewSizeRotator path with RotationSize := L } fs env b).fs path).map List.length
      = some (c.length + b.length) ∧
    (∀ a t, Call.rename a t ∉
      (Write { NewSizeRotator path with RotationSize := L } fs env b).calls) ∧
    (∀ q, q ≠ path →
      (Write { NewSizeRotator path with RotationSize := L } fs env b).fs q = fs q) ∧
    (Write { NewSizeRotator path with RotationSize := L } fs env b).n = b.length := by
  have hd : (discover { NewSizeRotator path with RotationSize := L } fs).totalSize
      = (c.length : Int) := by
    simp [discover, NewSizeRotator, Lstat, hc]
  have hex : exceeds (discover { NewSizeRotator path with RotationSize := L } fs) b = false := by
    simp only [exceeds, hd, discover_RotationSize, decide_eq_false_iff_not]
    rw [wrapInt64_eq (by omega) (by omega)]
    omega
  have hno := Write_no_rename_of_not_exceeds _ fs env b hex
  rw [Write_of_not_exceeds _ fs env b hex] at herr
  have hc' : fs (discover { NewSizeRotator path with RotationSize := L } fs).path = some c := by
    simpa [NewSizeRotator] using hc
  obtain ⟨h1, h2⟩ := reopenAndWrite_ok hc' herr
  rw [← Write_of_not_exceeds _ fs env b hex] at h1 h2
  have hp : (discover { NewSizeRotator path with RotationSize := L } fs).path = path := by
    simp [NewSizeRotator]
  rw [hp] at h2
  refine ⟨by rw [h2, FS.set_same], by rw [h2, FS.set_same]; simp, hno.1, ?_, h1⟩
  intro q hq
  rw [h2, FS.set_other _ _ hq]

/-- Witness of C6: `a.log` holding 4 bytes, limit 10, payload of 6 bytes. -/
theorem restart_resynchronization_witness :
    ((10 : Int) < 2 ^ 63) ∧ onlyALog 4 aLog = some (bytesOf 4) ∧
    (((bytesOf 4).length : Int) + ((bytesOf 6).length : Int) ≤ 10) ∧
    (Write { NewSizeRotator aLog with RotationSize := 10 } (onlyALog 4) Env.ok
      (bytesOf 6)).err = none ∧
    (Write { NewSizeRotator aLog with RotationSize := 10 } (onlyALog 4) Env.ok
      (bytesOf 6)).fs aLog = some (bytesOf 4 ++ bytesOf 6) :=
  ⟨by decide, by decide, by decide, by decide,
    (restart_resynchronization aLog (onlyALog 4) Env.ok (bytesOf 4) (bytesOf 6) 10
      (by decide) (by decide) (by decide) (by decide)).1⟩

/-- C7 (bounded active file across restart), evaluated on a fresh writer
with limit 10 over `a.log` holding 8 bytes, with writes of 2 and then 8 bytes,
no call failing and the first slot free: both writes return without error,
nothing is renamed, and `a.log` ends with 18 bytes. -/
theorem restarted_writer_overshoots :
    (freshALog 10).MaxRotation = 999 ∧
    onlyALog 8 (renamedPath aLog 1 999) = none ∧
    (Write (freshALog 10) (onlyALog 8) Env.ok (bytesOf 2)).err = none ∧
    ((Write (freshALog 10) (onlyALog 8) Env.ok (bytesOf 2)).fs aLog).map List.length
      = some 10 ∧
    (Write (Write (freshALog 10) (onlyALog 8) Env.ok (bytesOf 2)).r
      (Write (freshALog 10) (onlyALog 8) Env.ok (bytesOf 2)).fs Env.ok (bytesOf 8)).err
      = none ∧
    (Write (Write (freshALog 10) (onlyALog 8) Env.ok (bytesOf 2)).r
      (Write (freshALog 10) (onlyALog 8) Env.ok (bytesOf 2)).fs Env.ok (bytesOf 8)).calls
      = [Call.write (bytesOf 8)] ∧
    returned (freshALog 10) (onlyALog 8) [(Env.ok, bytesOf 2), (Env.ok, bytesOf 8)] = [2, 8] ∧
    ((afterWrites (freshALog 10) (onlyALog 8)
      [(Env.ok, bytesOf 2), (Env.ok, bytesOf 8)]).2 aLog).map List.length = some 18 ∧
    (afterWrites (freshALog 10) (onlyALog 8)
      [(Env.ok, bytesOf 2), (Env.ok, bytesOf 8)]).2 (renamedPath aLog 1 999) = none := by
  decide

/-- C8 (`totalSize` tracks the file), evaluated on a fresh writer with limit
10 over `a.log` holding 8 bytes and a write of 2 bytes: the size read from
disk is 8, the write returns without error and renames nothing, `a.log` then
holds 10 bytes, and `totalSize` is 2. -/
theorem totalSize_after_restart :
    (discover (freshALog 10) (onlyALog 8)).totalSize = 8 ∧
    (Write (freshALog 10) (onlyALog 8) Env.ok (bytesOf 2)).err = none ∧
    (Write (freshALog 10) (onlyALog 8) Env.ok (bytesOf 2)).calls =
      [Call.lstat aLog, Call.openFile aLog, Call.write (bytesOf 2)] ∧
    ((Write (freshALog 10) (onlyALog 8) Env.ok (bytesOf 2)).fs aLog).map List.length
      = some 10 ∧
    (Write (freshALog 10) (onlyALog 8) Env.ok (bytesOf 2)).r.totalSize = 2 := by
  decide

/-- C9 (oversized write is written through), evaluated on a fresh writer
with limit 10 whose path does not exist, every slot free, and a payload of
11 bytes: the rename of the missing file fails, `Write` returns 0 and that
error, and no file exists afterwards. -/
theorem oversized_first_write :
    (Write (freshALog 10) emptyFS Env.ok (bytesOf 11)).calls =
      [Call.lstat aLog, Call.lstat "a_001.log".toList,
        Call.rename aLog "a_001.log".toList] ∧
    (Write (freshALog 10) emptyFS Env.ok (bytesOf 11)).n = 0 ∧
    (Write (freshALog 10) emptyFS Env.ok (bytesOf 11)).err = some Error.notExist ∧
    (Write (freshALog 10) emptyFS Env.ok (bytesOf 11)).fs aLog = none ∧
    (Write (freshALog 10) emptyFS Env.ok (bytesOf 11)).fs "a_001.log".toList = none := by
  decide

/-- C10 (size accounting). For a sequence of writes none of which triggers
rotation (`RotationSize` an `int64`, `totalSize` not negative at the start):
if the writer holds a handle, `totalSize` grows by the sum of the byte counts
the writes returned; if it holds none and the first write opens the file,
`totalSize` after the sequence is the sum of the byte counts returned by the
writes of the sequence, that is, by the writes since the handle was opened.
Each count is what the underlying write got through, short or not. -/
theorem size_accounting (r : SizeRotator) (fs : FS) (ws : List (Env × List Byte))
    (h0 : 0 ≤ r.totalSize) (hL : r.RotationSize < 2 ^ 63) (hnr : noRotation r fs ws) :
    (∀ f, r.file = some f →
      (afterWrites r fs ws).1.totalSize = r.totalSize + ((returned r fs ws).sum : Nat)) ∧
    (∀ env b rest, ws = (env, b) :: rest → r.file = none → env.openErr = none →
      (afterWrites r fs ws).1.totalSize = ((returned r fs ws).sum : Nat)) := by
  constructor
  · intro f hf
    exact afterWrites_totalSize_open ws r fs f hf h0 hL hnr
  · intro env b rest hws hf ho
    subst hws
    obtain ⟨hfit, hrest⟩ := hnr
    obtain ⟨h1, h2, h3⟩ := Write_step_nil r fs env b hf ho h0 hL hfit
    have h0' : 0 ≤ (Write r fs env b).r.totalSize := by rw [h1]; omega
    have := afterWrites_totalSize_open rest (Write r fs env b).r (Write r fs env b).fs
      ⟨false⟩ h2 h0' (by rw [h3]; exact hL) hrest
    simp only [afterWrites, returned, List.sum_cons]
    rw [this, h1]
    push_cast
    rfl

/-- Witness of C10: on an empty filesystem, limit 10, a write of 3 bytes and
then a write of 4 bytes of which only 2 get through: the counts returned are
3 and 2 and `totalSize` is their sum. -/
theorem size_accounting_witness :
    0 ≤ (freshALog 10).totalSize ∧ (freshALog 10).RotationSize < 2 ^ 63 ∧
    noRotation (freshALog 10) emptyFS [(Env.ok, bytesOf 3), (shortWrite 2, bytesOf 4)] ∧
    returned (freshALog 10) emptyFS [(Env.ok, bytesOf 3), (shortWrite 2, bytesOf 4)] = [3, 2] ∧
    (afterWrites (freshALog 10) emptyFS
      [(Env.ok, bytesOf 3), (shortWrite 2, bytesOf 4)]).1.totalSize =
      ((returned (freshALog 10) emptyFS
        [(Env.ok, bytesOf 3), (shortWrite 2, bytesOf 4)]).sum : Nat) :=
  ⟨by decide, by decide, ⟨by decide, by decide, trivial⟩, by decide,
    (size_accounting (freshALog 10) emptyFS [(Env.ok, bytesOf 3), (shortWrite 2, bytesOf 4)]
      (by decide) (by decide) ⟨by decide, by decide, trivial⟩).2
      Env.ok (bytesOf 3) [(shortWrite 2, bytesOf 4)] rfl rfl rfl⟩

/-- C12 (end-to-end scenario). `RotationSize = 10`, `MaxRotation = 2`, path
`a.log`, empty filesystem, four writes of six bytes: the first renames
nothing and leaves `a.log` with its six bytes; the second renames `a.log` to
`a_1.log`, which keeps the six bytes of the first write, and leaves a new
`a.log` with six bytes and `totalSize = 6`; the third renames `a.log` to
`a_2.log` and leaves `a.log` with six bytes; the fourth, with `a_1.log` and
`a_2.log` present, returns the rotation-exceeded error and 0 bytes. -/
theorem end_to_end_scenario :
    (scenario1.n = 6 ∧ scenario1.err = none ∧
      scenario1.calls = [Call.lstat aLog, Call.openFile aLog, Call.write (six 1)] ∧
      scenario1.fs aLog = some (six 1) ∧ scenario1.r.totalSize = 6) ∧
    (scenario2.n = 6 ∧ scenario2.err = none ∧
      scenario2.calls = [Call.lstat "a_1.log".toList, Call.close,
        Call.rename aLog "a_1.log".toList, Call.openFile aLog, Call.write (six 2)] ∧
      scenario2.fs "a_1.log".toList = some (six 1) ∧
      scenario2.fs aLog = some (six 2) ∧ scenario2.r.totalSize = 6) ∧
    (scenario3.n = 6 ∧ scenario3.err = none ∧
      scenario3.calls = [Call.lstat "a_1.log".toList, Call.lstat "a_2.log".toList,
        Call.close, Call.rename aLog "a_2.log".toList, Call.openFile aLog,
        Call.write (six 3)] ∧
      scenario3.fs "a_1.log".toList = some (six 1) ∧
      scenario3.fs "a_2.log".toList = some (six 2) ∧
      scenario3.fs aLog = some (six 3) ∧ scenario3.r.totalSize = 6) ∧
    (scenario4.n = 0 ∧ scenario4.err = some Error.rotationExceeded ∧
      scenario4.calls = [Call.lstat "a_1.log".toList, Call.lstat "a_2.log".toList] ∧
      scenario4.fs "a_1.log".toList = some (six 1) ∧
      scenario4.fs "a_2.log".toList = some (six 2) ∧
      scenario4.fs aLog = some (six 3)) := by
  decide

/-- C14 (close on an unopened writer). For every writer without handle,
`Close` returns `os.ErrInvalid` and leaves the writer as it was (`Close` has
no access to the filesystem). A freshly constructed writer has no handle, and
neither has the writer left by a `Write` whose rename failed. -/
theorem close_unopened :
    (∀ r : SizeRotator, r.file = none → (Close r).1 = some Error.invalid ∧ (Close r).2 = r) ∧
    (∀ path : Str, (Close (NewSizeRotator path)).1 = some Error.invalid ∧
      (Close (NewSizeRotator path)).2 = NewSizeRotator path) ∧
    (∀ (r : SizeRotator) (fs : FS) (env : Env) (b : List Byte) (t : Str) (e : Error),
      Call.rename r.path t ∈ (Write r fs env b).calls →
      Rename env fs r.path t = Except.error e →
      (Write r fs env b).r.file = none ∧
      (Close (Write r fs env b).r).1 = some Error.invalid ∧
      (Close (Write r fs env b).r).2 = (Write r fs env b).r) := by
  have h1 : ∀ r : SizeRotator, r.file = none →
      (Close r).1 = some Error.invalid ∧ (Close r).2 = r := by
    intro r hr
    simp [Close, hr]
  refine ⟨h1, fun path => h1 _ rfl, ?_⟩
  intro r fs env b t e hren hfail
  obtain ⟨hex, hmem⟩ := rename_mem_Write hren
  obtain ⟨_, _, _, hr, hret, _⟩ :=
    rotateFrom_rename_mem env (discover r fs) fs _ _ _ _ hmem
  change (rotate env (discover r fs) fs).r = _ at hr
  change (rotate env (discover r fs) fs).ret = _ at hret
  simp only [discover_path, hfail] at hret
  have hfile : (Write r fs env b).r.file = none := by
    rw [Write_of_exceeds r fs env b hex]
    simp only [hret]
    rw [hr]
  exact ⟨hfile, h1 _ hfile⟩

/-- Witness of C14: the rename fails for an outside reason on a writer that
held a handle; afterwards the writer has no handle and `Close` is an error. -/
theorem close_unopened_witness :
    Call.rename scenario1.r.path "a_1.log".toList ∈
      (Write scenario1.r scenario1.fs renameFails (six 2)).calls ∧
    Rename renameFails scenario1.fs scenario1.r.path "a_1.log".toList =
      Except.error (Error.fault 13) ∧
    scenario1.r.file = some ⟨false⟩ ∧
    (Write scenario1.r scenario1.fs renameFails (six 2)).r.file = none ∧
    (Close (Write scenario1.r scenario1.fs renameFails (six 2)).r).1 = some Error.invalid :=
  have h := close_unopened.2.2 scenario1.r scenario1.fs renameFails (six 2)
    "a_1.log".toList (Error.fault 13) (by decide) rfl
  ⟨by decide, rfl, by decide, h.1, h.2.1⟩

/-- C16 (constructor defaults). `NewSizeRotator path` has that path, no
handle, `totalSize = 0`, `RotationSize = 10485760` (10 MiB) and
`MaxRotation = 999`; it is a function of the path alone and has no access to
the filesystem. -/
theorem constructor_defaults (path : Str) :
    (NewSizeRotator path).path = path ∧ (NewSizeRotator path).file = none ∧
    (NewSizeRotator path).totalSize = 0 ∧
    (NewSizeRotator path).RotationSize = 10485760 ∧
    (NewSizeRotator path).RotationSize = 10 * 2 ^ 20 ∧
    (NewSizeRotator path).MaxRotation = 999 := by
  refine ⟨rfl, rfl, rfl, ?_, ?_, rfl⟩ <;>
    simp [NewSizeRotator, defaultRotationSize]

/-- C11 (a failed write returns zero bytes). When all slots `1..MaxRotation`
(`MaxRotation >= 1`) are taken and the payload triggers rotation, when the
rename of `path` fails, and when opening `path` fails, `Write` returns
`n = 0` and an error, which for the rename and the open is the error of that
call. In each case no write to the handle is made and every file content
afterwards is a content some file had before, so no byte of the payload
reaches a file. -/
theorem failed_write_returns_zero (r : SizeRotator) (fs : FS) (env : Env) (b : List Byte) :
    (1 ≤ r.MaxRotation →
      (∀ i : Int, 1 ≤ i → i ≤ r.MaxRotation →
        fs (renamedPath r.path i r.MaxRotation) ≠ none) →
      exceeds (discover r fs) b = true →
      (Write r fs env b).n = 0 ∧ (Write r fs env b).err = some Error.rotationExceeded ∧
      (Write r fs env b).fs = fs ∧ ∀ x, Call.write x ∉ (Write r fs env b).calls) ∧
    (∀ t e, Call.rename r.path t ∈ (Write r fs env b).calls →
      Rename env fs r.path t = Except.error e →
      (Write r fs env b).n = 0 ∧ (Write r fs env b).err = some e ∧
      (Write r fs env b).fs = fs ∧ ∀ x, Call.write x ∉ (Write r fs env b).calls) ∧
    (∀ e, env.openErr = some e → Call.openFile r.path ∈ (Write r fs env b).calls →
      (Write r fs env b).n = 0 ∧ (Write r fs env b).err = some e ∧
      (∀ x, Call.write x ∉ (Write r fs env b).calls) ∧
      ∀ q c, (Write r fs env b).fs q = some c → ∃ p, fs p = some c) := by
  have hd : ∀ x, Call.write x ∉ discoverCalls r := by
    intro x hx
    unfold discoverCalls at hx
    cases hf : r.file <;> simp [hf] at hx
  have hloop : ∀ x, Call.write x ∉ (rotate env (discover r fs) fs).calls := by
    intro x hx
    rcases rotateFrom_calls_kind env (discover r fs) fs _ _ _ hx with ⟨p, h⟩ | h | ⟨t, h⟩ <;>
      cases h
  refine ⟨?_, ?_, ?_⟩
  · intro hM hocc hex
    obtain ⟨h1, h2, h3, _⟩ := rotateFrom_exhausted env (discover r fs) fs
      (discover r fs).MaxRotation.toNat 1 (by simp only [discover_MaxRotation]; omega)
      (by simp only [discover_MaxRotation]; omega) (by simpa using hocc)
    change (rotate env (discover r fs) fs).r = _ at h1
    change (rotate env (discover r fs) fs).fs = _ at h2
    change (rotate env (discover r fs) fs).ret = _ at h3
    rw [Write_of_exceeds r fs env b hex]
    simp only [h3, h2]
    refine ⟨trivial, trivial, trivial, ?_⟩
    intro x hx
    rcases List.mem_append.mp hx with hx | hx
    · exact hd x hx
    · exact hloop x hx
  · intro t e hren hfail
    obtain ⟨hex, hmem⟩ := rename_mem_Write hren
    obtain ⟨_, _, _, _, hret, hfs⟩ :=
      rotateFrom_rename_mem env (discover r fs) fs _ _ _ _ hmem
    change (rotate env (discover r fs) fs).ret = _ at hret
    change (rotate env (discover r fs) fs).fs = _ at hfs
    simp only [discover_path, hfail] at hret hfs
    rw [Write_of_exceeds r fs env b hex]
    simp only [hret, hfs]
    refine ⟨trivial, trivial, trivial, ?_⟩
    intro x hx
    rcases List.mem_append.mp hx with hx | hx
    · exact hd x hx
    · exact hloop x hx
  · intro e ho hopen
    obtain ⟨r1, fs1, pre, hp, hkind, _, hct, hW | hW⟩ := Write_normal_form r fs env b
    · obtain ⟨e1, hW⟩ := hW
      rw [hW] at hopen
      rcases hkind _ hopen with ⟨p, h⟩ | h | ⟨t, h⟩ <;> cases h
    · rw [hW] at hopen ⊢
      cases hf : r1.file with
      | some f =>
        rw [reopenAndWrite_calls_some env r1 fs1 b pre f hf] at hopen
        rcases List.mem_append.mp hopen with h | h
        · rcases hkind _ h with ⟨p, h⟩ | h | ⟨t, h⟩ <;> cases h
        · simp at h
      | none =>
        rw [reopenAndWrite_open_fails env r1 fs1 b pre e hf ho]
        refine ⟨rfl, rfl, ?_, hct⟩
        intro x hx
        rcases List.mem_append.mp hx with h | h
        · rcases hkind _ h with ⟨p, h⟩ | h | ⟨t, h⟩ <;> cases h
        · simp at h

/-- Witness of C11: the open fails on the first write of a fresh writer. -/
theorem failed_write_returns_zero_witness :
    openFails.openErr = some (Error.fault 13) ∧
    Call.openFile (twoSlots 10).path ∈ (Write (twoSlots 10) emptyFS openFails (six 1)).calls ∧
    (Write (twoSlots 10) emptyFS openFails (six 1)).n = 0 ∧
    (Write (twoSlots 10) emptyFS openFails (six 1)).err = some (Error.fault 13) :=
  have h := (failed_write_returns_zero (twoSlots 10) emptyFS openFails (six 1)).2.2
    (Error.fault 13) rfl (by decide)
  ⟨rfl, by decide, h.1, h.2.1⟩

/-- C19 (write preserves other files). A `Write` renames nothing but `path`,
and only to a name that did not exist; every file other than the one at
`path` that existed before exists afterwards with the same content; and a
name other than `path` and the rename target is afterwards what it was,
present or absent. -/
theorem write_preserves_other_files (r : SizeRotator) (fs : FS) (env : Env)
    (b : List Byte) :
    (∀ a t, Call.rename a t ∈ (Write r fs env b).calls → a = r.path ∧ fs t = none) ∧
    (∀ q c, q ≠ r.path → fs q = some c → (Write r fs env b).fs q = some c) ∧
    (∀ q, q ≠ r.path → (∀ t, Call.rename r.path t ∈ (Write r fs env b).calls → q ≠ t) →
      (Write r fs env b).fs q = fs q) := by
  have h1 : ∀ a t, Call.rename a t ∈ (Write r fs env b).calls → a = r.path ∧ fs t = none := by
    intro a t hren
    obtain ⟨_, hmem⟩ := rename_mem_Write hren
    obtain ⟨ha, hfree, _⟩ := rotateFrom_rename_mem env (discover r fs) fs _ _ _ _ hmem
    exact ⟨by simpa using ha, hfree⟩
  have h3 : ∀ q, q ≠ r.path →
      (∀ t, Call.rename r.path t ∈ (Write r fs env b).calls → q ≠ t) →
      (Write r fs env b).fs q = fs q := by
    intro q hq ht
    obtain ⟨r1, fs1, pre, hp, _, hfr, _, hW | hW⟩ := Write_normal_form r fs env b
    · obtain ⟨e1, hW⟩ := hW
      rw [hW] at ht ⊢
      exact hfr q hq ht
    · rw [hW] at ht ⊢
      obtain ⟨extra, hcalls, _⟩ := reopenAndWrite_calls env r1 fs1 b pre
      rw [reopenAndWrite_other env r1 fs1 b pre q (by rw [hp]; exact hq)]
      apply hfr q hq
      intro t hmem
      apply ht t
      rw [hcalls]
      exact List.mem_append_left _ hmem
  refine ⟨h1, ?_, h3⟩
  intro q c hq hc
  rw [h3 q hq, hc]
  intro t hmem heq
  have := (h1 _ _ hmem).2
  rw [← heq, hc] at this
  cases this

/-- Witness of C19: the third write of the scenario rotates `a.log` to
`a_2.log`; `a_1.log` keeps the bytes of the first write. -/
theorem write_preserves_other_files_witness :
    "a_1.log".toList ≠ scenario2.r.path ∧
    scenario2.fs "a_1.log".toList = some (six 1) ∧
    Call.rename aLog "a_2.log".toList ∈ (Write scenario2.r scenario2.fs Env.ok (six 3)).calls ∧
    (Write scenario2.r scenario2.fs Env.ok (six 3)).fs "a_1.log".toList = some (six 1) :=
  ⟨by decide, by decide, by decide,
    (write_preserves_other_files scenario2.r scenario2.fs Env.ok (six 3)).2.1
      "a_1.log".toList (six 1) (by decide) (by decide)⟩

/-- C18 (non-positive `MaxRotation` disables rotation). For every writer with
`MaxRotation <= 0` and every payload, whatever the sizes: `Write` renames
nothing and looks up no candidate name; it does not return the
rotation-exceeded error (the operating system not returning that value
either); when it returns no error the payload is appended to the file at
`path`, which is created if the writer had no handle and the file was
absent. With no call failing, `k` writes of the same payload to an existing
file leave it `k` payloads longer, however large that is. -/
theorem nonpositive_maxRotation (r : SizeRotator) (fs : FS) (env : Env) (b : List Byte)
    (hM : r.MaxRotation ≤ 0) :
    (∀ a t, Call.rename a t ∉ (Write r fs env b).calls) ∧
    (∃ extra, (Write r fs env b).calls = discoverCalls r ++ extra ∧
      ∀ c ∈ extra, c = Call.openFile r.path ∨ c = Call.write b) ∧
    (env.openErr ≠ some Error.rotationExceeded →
      (Write r fs env b).err ≠ some Error.rotationExceeded) ∧
    (∀ c, fs r.path = some c → (Write r fs env b).err = none →
      (Write r fs env b).n = b.length ∧
      (Write r fs env b).fs = fs.set r.path (some (c ++ b))) ∧
    (fs r.path = none → r.file = none → (Write r fs env b).err = none →
      (Write r fs env b).n = b.length ∧
      (Write r fs env b).fs = fs.set r.path (some b)) ∧
    (∀ (k : Nat) (c : List Byte), r.file ≠ some ⟨true⟩ → fs r.path = some c →
      ((afterWrites r fs (List.replicate k (Env.ok, b))).2 r.path).map List.length =
        some (c.length + k * b.length)) := by
  have hW := Write_of_nonpos r fs env b hM
  obtain ⟨extra, hcalls, hextra⟩ := reopenAndWrite_calls env (discover r fs) fs b
    (discoverCalls r)
  simp only [discover_path] at hextra
  refine ⟨?_, ⟨extra, by rw [hW, hcalls], hextra⟩, ?_, ?_, ?_, ?_⟩
  · intro a t hmem
    rw [hW, hcalls] at hmem
    rcases List.mem_append.mp hmem with h | h
    · unfold discoverCalls at h
      cases hf : r.file <;> simp [hf] at h
    · rcases hextra _ h with h' | h' <;> cases h'
  · intro hopen
    rw [hW]
    unfold reopenAndWrite
    cases hf : (discover r fs).file with
    | none =>
      cases ho : env.openErr with
      | some e =>
        simp only [OpenFile, ho]
        intro h
        apply hopen
        rw [ho, Option.some.inj h]
      | none =>
        cases hc : fs (discover r fs).path <;>
          simp only [OpenFile, ho, hc, File.Write] <;> split <;> simp
    | some f =>
      simp only [File.Write]
      cases f.closed <;> simp
  · intro c hc herr
    rw [hW] at herr ⊢
    have hc' : fs (discover r fs).path = some c := by simpa using hc
    simpa using reopenAndWrite_ok hc' herr
  · intro hc hf herr
    rw [hW] at herr ⊢
    have hc' : fs (discover r fs).path = none := by simpa using hc
    have hf' : (discover r fs).file = none := by simpa using hf
    obtain ⟨h1, h2, _, _⟩ := reopenAndWrite_new hf' hc' herr
    exact ⟨h1, by simpa using h2⟩
  · intro k
    have key : ∀ (k : Nat) (r0 : SizeRotator) (fs0 : FS) (c : List Byte),
        r0.MaxRotation ≤ 0 → r0.file ≠ some ⟨true⟩ → fs0 r0.path = some c →
        ((afterWrites r0 fs0 (List.replicate k (Env.ok, b))).2 r0.path).map List.length =
          some (c.length + k * b.length) := by
      intro k
      induction k with
      | zero =>
        intro r0 fs0 c _ _ hc
        simp [afterWrites, hc]
      | succ k ih =>
        intro r0 fs0 c hM0 hf0 hc
        have hW0 := Write_of_nonpos r0 fs0 Env.ok b hM0
        have hf0' : (discover r0 fs0).file ≠ some ⟨true⟩ := by simpa using hf0
        have hc0 : fs0 (discover r0 fs0).path = some c := by simpa using hc
        obtain ⟨_, h2, h3, h4, h5⟩ :=
          reopenAndWrite_envok (discover r0 fs0) fs0 b (discoverCalls r0) c hf0' hc0
        rw [← hW0] at h2 h3 h4 h5
        simp only [discover_path, discover_MaxRotation] at h2 h4 h5
        have hstep := ih (Write r0 fs0 Env.ok b).r (Write r0 fs0 Env.ok b).fs (c ++ b)
          (by rw [h5]; exact hM0) (by rw [h3]; simp)
          (by rw [h4, h2, FS.set_same])
        rw [h4] at hstep
        simp only [List.replicate_succ, afterWrites]
        rw [hstep, List.length_append, Nat.succ_mul]
        congr 1
        omega
    exact fun c hf hc => key k r fs c hM hf hc

/-- Witness of C18: `MaxRotation = 0`, limit 10, `a.log` holding 8 bytes: a
write of 6 bytes is appended without rename, and five such writes leave 38
bytes. -/
theorem nonpositive_maxRotation_witness :
    (noSlots 10).MaxRotation ≤ 0 ∧
    (∀ a t, Call.rename a t ∉
      (Write (noSlots 10) (onlyALog 8) Env.ok (bytesOf 6)).calls) ∧
    ((afterWrites (noSlots 10) (onlyALog 8)
      (List.replicate 5 (Env.ok, bytesOf 6))).2 (noSlots 10).path).map List.length =
        some ((bytesOf 8).length + 5 * (bytesOf 6).length) :=
  have h := nonpositive_maxRotation (noSlots 10) (onlyALog 8)
    Env.ok (bytesOf 6) (by decide)
  ⟨by decide, h.1, h.2.2.2.2.2 5 (bytesOf 8) (by decide) (by decide)⟩

/-- C13 (index padding). For `1 <= i <= MaxRotation`: the padding call of
lines 62 and 64 does not panic; its result is as many `'0'` as the decimal
digits of `MaxRotation` outnumber those of `i`, followed by the decimal
digits of `i`; its length is the number of decimal digits of `MaxRotation`;
and read as a decimal number it is `i`. For the default 999 the width is 3,
index 1 gives `001` and index 999 gives `999`. -/
theorem index_padding (i m : Int) (h1 : 1 ≤ i) (h2 : i ≤ m) :
    LeftPad2Len (Itoa i) ['0'] ((Itoa m).length : Int) = some (paddedIndex i m) ∧
    paddedIndex i m =
      List.replicate ((Itoa m).length - (Itoa i).length) '0' ++ Itoa i ∧
    Itoa i = ((Nat.digits 10 i.toNat).map Nat.digitChar).reverse ∧
    (Itoa m).length = (Nat.digits 10 m.toNat).length ∧
    (paddedIndex i m).length = (Nat.digits 10 m.toNat).length ∧
    decimalValue (paddedIndex i m) = some i.toNat ∧
    ((Itoa defaultMaxRotation).length = 3 ∧
      paddedIndex 1 defaultMaxRotation = "001".toList ∧
      paddedIndex 999 defaultMaxRotation = "999".toList) := by
  have hle := Itoa_length_le h1 h2
  have hpad := paddedIndex_of_le h1 h2
  have hm : 1 ≤ m := by omega
  refine ⟨?_, hpad, Itoa_pos h1, Itoa_length_pos hm, ?_, ?_, by decide⟩
  · rw [LeftPad2Len_zero, paddedIndex_eq]
  · rw [hpad, List.length_append, List.length_replicate, ← Itoa_length_pos hm]
    omega
  · rw [hpad]
    exact decimalValue_padded _ h1

/-- Witness of C13: index 7 of 999 is `007`. -/
theorem index_padding_witness :
    (1 : Int) ≤ 7 ∧ (7 : Int) ≤ 999 ∧ paddedIndex 7 999 = "007".toList ∧
    decimalValue (paddedIndex 7 999) = some 7 :=
  ⟨by decide, by decide, by decide,
    (index_padding 7 999 (by decide) (by decide)).2.2.2.2.2.1⟩

/-- C20 (rotated names are distinct per index). For every path and two
different indices in `1..MaxRotation`, the rotated names differ. -/
theorem distinct_rotated_names (path : Str) (m i j : Int) (hi1 : 1 ≤ i) (hi2 : i ≤ m)
    (hj1 : 1 ≤ j) (hj2 : j ≤ m) (hne : i ≠ j) :
    renamedPath path i m ≠ renamedPath path j m := by
  intro heq
  have hpad : paddedIndex i m = paddedIndex j m := by
    unfold renamedPath at heq
    simp only [] at heq
    split at heq
    · simpa using heq
    · simpa using heq
  have hi := decimalValue_padded ((Itoa m).length - (Itoa i).length) hi1
  have hj := decimalValue_padded ((Itoa m).length - (Itoa j).length) hj1
  rw [← paddedIndex_of_le hi1 hi2] at hi
  rw [← paddedIndex_of_le hj1 hj2, ← hpad, hi] at hj
  have : i.toNat = j.toNat := Option.some.inj hj
  omega

/-- Witness of C20: `a.log` with indices 1 and 2 of 999. -/
theorem distinct_rotated_names_witness :
    (1 : Int) ≤ 1 ∧ (1 : Int) ≤ 999 ∧ (1 : Int) ≤ 2 ∧ (2 : Int) ≤ 999 ∧ (1 : Int) ≠ 2 ∧
    renamedPath aLog 1 999 ≠ renamedPath aLog 2 999 :=
  ⟨by decide, by decide, by decide, by decide, by decide,
    distinct_rotated_names aLog 999 1 2 (by decide) (by decide) (by decide) (by decide)
      (by decide)⟩

/-- C17 (mutual exclusion), as far as one method at a time shows it: every
access and call of `Write`, and so of `WriteString`, lies between taking and
releasing the mutex, whatever the input; `Close` reads and closes the handle
without taking the mutex. -/
theorem close_takes_no_lock :
    (∀ (r : SizeRotator) (fs : FS) (env : Env) (b : List Byte),
      heldThroughout false (WriteSteps r fs env b) = true) ∧
    (∀ (r : SizeRotator) (fs : FS) (env : Env) (str : Str),
      heldThroughout false (WriteStringSteps r fs env str) = true) ∧
    heldThroughout false CloseSteps = false ∧ Step.lock ∉ CloseSteps := by
  have key : ∀ calls : List Call,
      heldThroughout true (calls.map Step.call ++ [Step.unlock]) = true := by
    intro calls
    induction calls with
    | nil => rfl
    | cons c cs ih => simpa [heldThroughout] using ih
  have hW : ∀ (r : SizeRotator) (fs : FS) (env : Env) (b : List Byte),
      heldThroughout false (WriteSteps r fs env b) = true := by
    intro r fs env b
    simpa [WriteSteps, heldThroughout] using key (Write r fs env b).calls
  exact ⟨hW, fun r fs env str => hW r fs env (utf8Bytes str), by decide, by decide⟩

end Rotator
